import Mathlib

/-!
# Verification of the bumble storage engine (brown-csci1270 db)

Shallow embedding, in Lean 4, of the core subsystems of the `db` storage
engine: the page buffer manager (`pkg/pager/pager.go`), the B+-tree node and
cursor routines (`pkg/btree/node.go`, `pkg/btree/btree_subr.go`), the
extendible hash index (`pkg/hash`, lock-explicit variant), the Grace hash
join and its Bloom filter (`pkg/query`), and the recovery manager's rollback
path (`pkg/recovery`).

Each Go function used by a claim is translated into an executable Lean
definition; stateful Go code becomes explicit state passing.  Machine
integers (`int64`) are modelled as `Int`; page numbers and indices that are
always non-negative in the modelled runs are `Nat` where noted.  Fallible Go
functions return `Option`/`Except`.
-/

namespace Db

/-! ## Bloom filter (`pkg/query/filter.go` part of `src/unnamed/part_001`)

`bitset.BitSet` is modelled as the list of set bit indices.  The two hash
functions `hash.XxHasher` and `hash.MurmurHasher` live in a hash-package
source file that is not present under `src/`; they are modelled as abstract
functions `Int → Nat → Nat` (the spec requires only that they are two fixed
deterministic 64-bit hashers reduced to the filter size). -/

/-- `DEFAULT_FILTER_SIZE` from `part_001`. -/
def DEFAULT_FILTER_SIZE : Nat := 1024

/-- A Bloom filter: its size and the set of bits currently set
(`bits : *bitset.BitSet` as the list of set indices). -/
structure BloomFilter where
  size : Nat
  bits : List Nat
deriving Repr, DecidableEq

/-- `CreateFilter` initializes a BloomFilter with the given size. -/
def CreateFilter (size : Nat) : BloomFilter :=
  { size := size, bits := [] }

/-- `BloomFilter.Insert`: set the xxHash bit and the Murmur bit.
`xx`/`murmur` are the two abstract hashers. -/
def BloomFilter.insertKey (xx murmur : Int → Nat → Nat) (filter : BloomFilter)
    (key : Int) : BloomFilter :=
  { filter with
    bits := (xx key DEFAULT_FILTER_SIZE) :: (murmur key DEFAULT_FILTER_SIZE) :: filter.bits }

/-- `BloomFilter.Contains`: test both bits. -/
def BloomFilter.containsKey (xx murmur : Int → Nat → Nat) (filter : BloomFilter)
    (key : Int) : Bool :=
  (xx key DEFAULT_FILTER_SIZE ∈ filter.bits) ∧ (murmur key DEFAULT_FILTER_SIZE ∈ filter.bits)

/-- Insert a list of keys one by one (a sequence of `Insert` calls). -/
def BloomFilter.insertAll (xx murmur : Int → Nat → Nat) (filter : BloomFilter)
    (keys : List Int) : BloomFilter :=
  keys.foldl (fun f k => f.insertKey xx murmur k) filter

lemma BloomFilter.mem_bits_insertKey (xx murmur : Int → Nat → Nat)
    (filter : BloomFilter) (key : Int) (b : Nat) (hb : b ∈ filter.bits) :
    b ∈ (filter.insertKey xx murmur key).bits := by
  simp [BloomFilter.insertKey]
  tauto

lemma BloomFilter.contains_insertKey_self (xx murmur : Int → Nat → Nat)
    (filter : BloomFilter) (key : Int) :
    (filter.insertKey xx murmur key).containsKey xx murmur key = true := by
  simp [BloomFilter.insertKey, BloomFilter.containsKey]

lemma BloomFilter.contains_mono (xx murmur : Int → Nat → Nat)
    (filter : BloomFilter) (key k : Int)
    (h : filter.containsKey xx murmur k = true) :
    (filter.insertKey xx murmur key).containsKey xx murmur k = true := by
  simp only [BloomFilter.containsKey, decide_eq_true_eq] at h ⊢
  exact ⟨BloomFilter.mem_bits_insertKey _ _ _ _ _ h.1,
         BloomFilter.mem_bits_insertKey _ _ _ _ _ h.2⟩

lemma BloomFilter.contains_insertAll_aux (xx murmur : Int → Nat → Nat)
    (keys : List Int) (filter : BloomFilter) (k : Int)
    (h : k ∈ keys ∨ filter.containsKey xx murmur k = true) :
    (filter.insertAll xx murmur keys).containsKey xx murmur k = true := by
  induction keys generalizing filter with
  | nil =>
      rcases h with h | h
      · cases h
      · simpa [BloomFilter.insertAll] using h
  | cons x xs ih =>
      simp only [BloomFilter.insertAll, List.foldl_cons] at *
      rcases h with h | h
      · rcases List.mem_cons.mp h with rfl | hx
        · exact ih _ (Or.inr (BloomFilter.contains_insertKey_self xx murmur filter k))
        · exact ih _ (Or.inl hx)
      · exact ih _ (Or.inr (BloomFilter.contains_mono xx murmur filter x k h))

/-! ## B+-tree leaf nodes (`pkg/btree/node.go`, `pkg/btree/btree_subr.go`)

A leaf node occupies one 4096-byte page: a node-type byte, a varint key
count, a varint right-sibling page number, then fixed-stride cells of
(key, value) varint pairs.  The page is zero-initialized by `initPage`, so a
cell that has never been written decodes to `(0, 0)`.  We model the cell
region as a `List (Int × Int)` of the cells written so far together with the
`numKeys` count; `getCell` past the written region returns the decoded
zeroes `(0, 0)`, exactly as reading the zeroed page does.

`BTreeEntry`/`ENTRYSIZE` live in an entry source file absent from `src/`;
per the spec a cell is two varint fields at fixed stride, so
`ENTRYSIZE = 2 * binary.MaxVarintLen64 = 20`. -/

/-- Modelled from the spec: `ENTRYSIZE` (cell stride) is two
`binary.MaxVarintLen64`-byte varint fields; the entry encoding file is not
present under `src/`. -/
def ENTRYSIZE : Nat := 20

/-- `pager.PAGESIZE` (directio block size). -/
def PAGESIZE : Nat := 4096

/-- `LEAF_NODE_HEADER_SIZE = NODETYPE_SIZE + NUM_KEYS_SIZE + RIGHT_SIBLING_PN_SIZE
= 1 + 10 + 10`. -/
def LEAF_NODE_HEADER_SIZE : Nat := 21

/-- `ENTRIES_PER_LEAF_NODE = ((PAGESIZE - LEAF_NODE_HEADER_SIZE) / ENTRYSIZE) - 1`. -/
def ENTRIES_PER_LEAF_NODE : Nat := (PAGESIZE - LEAF_NODE_HEADER_SIZE) / ENTRYSIZE - 1

/-- A leaf node as represented on its page: the page number, the key count
`numKeys`, the cell array (written prefix; unwritten cells decode to
`(0,0)`), and the right sibling page number. -/
@[ext]
structure LeafRep where
  pageNum : Int
  numKeys : Nat
  cells : List (Int × Int)
  rightSibling : Int
deriving Repr, DecidableEq

/-- `getCell`: decode the cell at `index`; an index beyond the written
region reads the zero-initialized page, decoding to `(0, 0)`. -/
def LeafRep.getCell (node : LeafRep) (index : Nat) : Int × Int :=
  node.cells.getD index (0, 0)

/-- The cells in the valid region `[0, numKeys)` of the node. -/
def LeafRep.validCells (node : LeafRep) : List (Int × Int) :=
  (List.range node.numKeys).map node.getCell

/-- The keys in the valid region of the node. -/
def LeafRep.keys (node : LeafRep) : List Int :=
  node.validCells.map Prod.fst

/-- `modifyCell`: write a cell at `index` into the page's cell array
(cells between the written region and `index` stay zero). -/
def writeCell (cells : List (Int × Int)) (index : Nat) (e : Int × Int) :
    List (Int × Int) :=
  if index < cells.length then cells.set index e
  else cells ++ List.replicate (index - cells.length) (0, 0) ++ [e]

/-- First index of `l` whose key is `≥ key`, or `l.length` if none.
`LeafNode.search` runs `sort.Search` over the valid cells; `sort.Search`'s
contract returns the smallest index satisfying the (monotone) predicate
`keys[i] ≥ key`, which is this first-index function. -/
def searchList (l : List (Int × Int)) (key : Int) : Nat :=
  match l with
  | [] => 0
  | e :: rest => if key ≤ e.1 then 0 else searchList rest key + 1

/-- `LeafNode.search`: first index `i < numKeys` with `keys[i] ≥ key`,
or `numKeys` if none. -/
def LeafRep.search (node : LeafRep) (key : Int) : Nat :=
  searchList node.validCells key

/-- The `Split` carrier struct of `pkg/btree/node.go` (with Go zero values
as defaults, and `error` as `Option String`). -/
@[ext]
structure GoSplit where
  isSplit : Bool := false
  key : Int := 0
  leftPN : Int := 0
  rightPN : Int := 0
  err : Option String := none
deriving Repr, DecidableEq

/-- The copy loop of `LeafNode.split`: for `i` in `[i0, old.numKeys)`,
append cell `i` of the old node to the new node and bump its key count. -/
def splitCopyLoop (old : LeafRep) (newNode : LeafRep) (i : Nat) : LeafRep :=
  if h : i < old.numKeys then
    splitCopyLoop old
      { newNode with
        cells := writeCell newNode.cells newNode.numKeys (old.getCell i)
        numKeys := newNode.numKeys + 1 } (i + 1)
  else newNode
termination_by old.numKeys - i
decreasing_by omega

/-- `LeafNode.split`: split at `mid = numKeys / 2`; a freshly created
(zeroed) leaf at page `newPN` receives cells `[mid, numKeys)` in order; the
old node shrinks to `mid` keys; the new node's right sibling becomes the old
node's previous right sibling and the old node's right sibling becomes
`newPN`; the returned carrier promotes the new node's first key with the old
and new page numbers. -/
def LeafRep.split (node : LeafRep) (newPN : Int) : LeafRep × LeafRep × GoSplit :=
  let mid := node.numKeys / 2
  let fresh : LeafRep := { pageNum := newPN, numKeys := 0, cells := [], rightSibling := 0 }
  let newNode := splitCopyLoop node fresh mid
  let node1 : LeafRep := { node with numKeys := mid }
  let newNode1 : LeafRep := { newNode with rightSibling := node1.rightSibling }
  let node2 : LeafRep := { node1 with rightSibling := newPN }
  (node2, newNode1,
    { isSplit := true
      key := (newNode1.getCell 0).1
      leftPN := node.pageNum
      rightPN := newPN
      err := none })

/-- The shift-right loop of `LeafNode.insert`: for `i := numKeys; i > idx; i--`,
copy cell `i-1` into cell `i`. -/
def shiftLoop (cells : List (Int × Int)) (idx : Nat) (i : Nat) : List (Int × Int) :=
  if idx < i then
    shiftLoop (writeCell cells i (cells.getD (i - 1) (0, 0))) idx (i - 1)
  else cells
termination_by i

/-- `LeafNode.insert`: on `update`, overwrite a same-key entry or fail; else
reject a duplicate key; else shift cells right from the insertion point,
write the new cell, bump the count, and split on overflow.  `newPN` is the
page number the pager would hand to `createLeafNode` on a split. -/
def LeafRep.insert (node : LeafRep) (key value : Int) (update : Bool)
    (newPN : Int) : LeafRep × Option LeafRep × GoSplit :=
  let idx := node.search key
  if update then
    if idx < node.numKeys ∧ (node.getCell idx).1 = key then
      ({ node with cells := writeCell node.cells idx (key, value) }, none,
        { isSplit := false })
    else (node, none, { err := some "Cannot update non-existent entry" })
  else if idx < node.numKeys ∧ (node.getCell idx).1 = key then
    (node, none, { err := some "Cannot insert duplicate key" })
  else
    let cells1 := shiftLoop node.cells idx node.numKeys
    let cells2 := writeCell cells1 idx (key, value)
    let node1 : LeafRep := { node with cells := cells2, numKeys := node.numKeys + 1 }
    if node1.numKeys > ENTRIES_PER_LEAF_NODE then
      let r := node1.split newPN
      (r.1, some r.2.1, r.2.2)
    else (node1, none, { isSplit := false })

lemma LeafRep.validCells_length (node : LeafRep) :
    node.validCells.length = node.numKeys := by
  simp [LeafRep.validCells]

lemma LeafRep.validCells_getD (node : LeafRep) (i : Nat) (hi : i < node.numKeys) :
    node.validCells.getD i (0, 0) = node.getCell i := by
  rw [List.getD_eq_getElem]
  · simp [LeafRep.validCells]
  · simpa [LeafRep.validCells]

lemma LeafRep.validCells_eq_cells (node : LeafRep)
    (h : node.cells.length = node.numKeys) : node.validCells = node.cells := by
  apply List.ext_getElem
  · simp [LeafRep.validCells, h]
  · intro i h1 h2
    simp only [LeafRep.validCells, List.getElem_map, List.getElem_range,
      LeafRep.getCell]
    exact List.getD_eq_getElem node.cells (0, 0) h2

lemma writeCell_at_length (cells : List (Int × Int)) (e : Int × Int) :
    writeCell cells cells.length e = cells ++ [e] := by
  simp [writeCell]

/-- Unfolding of the copy loop of `LeafNode.split`: starting from an
accumulator whose cell array is exactly its valid region, it appends cells
`[i, old.numKeys)` of the old node in order. -/
lemma splitCopyLoop_spec (old : LeafRep) (acc : LeafRep) (i : Nat)
    (hlen : acc.cells.length = acc.numKeys) :
    (splitCopyLoop old acc i).cells
        = acc.cells ++ (List.range' i (old.numKeys - i)).map old.getCell ∧
    (splitCopyLoop old acc i).numKeys = acc.numKeys + (old.numKeys - i) ∧
    (splitCopyLoop old acc i).pageNum = acc.pageNum ∧
    (splitCopyLoop old acc i).rightSibling = acc.rightSibling := by
  by_cases h : i < old.numKeys
  · rw [splitCopyLoop, dif_pos h]
    obtain ⟨ihc, ihn, ihp, ihs⟩ := splitCopyLoop_spec old
      { acc with
        cells := writeCell acc.cells acc.numKeys (old.getCell i)
        numKeys := acc.numKeys + 1 } (i + 1)
      (by show (writeCell acc.cells acc.numKeys (old.getCell i)).length = acc.numKeys + 1
          rw [← hlen, writeCell_at_length]; simp)
    refine ⟨?_, ?_, by simpa using ihp, by simpa using ihs⟩
    · rw [ihc]
      show writeCell acc.cells acc.numKeys (old.getCell i) ++ _ = _
      rw [← hlen, writeCell_at_length]
      have hrange : List.range' i (old.numKeys - i)
          = i :: List.range' (i + 1) (old.numKeys - (i + 1)) := by
        have hh : old.numKeys - i = (old.numKeys - (i + 1)) + 1 := by omega
        rw [hh, List.range'_succ]
      rw [hrange]
      simp
    · rw [ihn]
      show acc.numKeys + 1 + (old.numKeys - (i + 1)) = acc.numKeys + (old.numKeys - i)
      omega
  · rw [splitCopyLoop, dif_neg h]
    have hz : old.numKeys - i = 0 := by omega
    simp [hz]
termination_by old.numKeys - i

lemma drop_range (n m : Nat) : (List.range n).drop m = List.range' m (n - m) := by
  by_cases h : m ≤ n
  · have h1 : List.range' 0 m ++ List.range' (0 + m) (n - m) = List.range' 0 ((n - m) + m) :=
      List.range'_append_1 0 m (n - m)
    have h2 : List.range n = List.range' 0 m ++ List.range' m (n - m) := by
      rw [List.range_eq_range']
      have h3 : (n - m) + m = n := by omega
      rw [← h3, ← h1]
      norm_num
    rw [h2, List.drop_left' (by simp)]
  · rw [List.drop_of_length_le (by simp; omega), Nat.sub_eq_zero_of_le (by omega)]
    simp

/-- Closed form of `LeafNode.split`: the old node keeps its cells with the
count shrunk to `mid = numKeys / 2` and its sibling pointed at `newPN`; the
new node at `newPN` holds cells `[mid, numKeys)` and the old sibling; the
carrier promotes the new node's cell 0. -/
lemma LeafRep.split_eq (node : LeafRep) (newPN : Int) :
    node.split newPN =
      ({ node with numKeys := node.numKeys / 2, rightSibling := newPN },
       { pageNum := newPN
         numKeys := node.numKeys - node.numKeys / 2
         cells := (List.range' (node.numKeys / 2)
             (node.numKeys - node.numKeys / 2)).map node.getCell
         rightSibling := node.rightSibling },
       { isSplit := true
         key := (((List.range' (node.numKeys / 2)
             (node.numKeys - node.numKeys / 2)).map node.getCell).getD 0 (0, 0)).1
         leftPN := node.pageNum
         rightPN := newPN
         err := none }) := by
  obtain ⟨hc, hk, hp, hs⟩ := splitCopyLoop_spec node
    { pageNum := newPN, numKeys := 0, cells := [], rightSibling := 0 }
    (node.numKeys / 2) (by simp)
  simp only [List.nil_append] at hc
  simp at hk hp hs
  unfold LeafRep.split
  simp only [Prod.mk.injEq]
  refine ⟨trivial, ?_, ?_⟩
  · ext : 1 <;> simp [hc, hk, hp, hs]
  · ext : 1 <;> simp [LeafRep.getCell, hc]

/-- C4: For every leaf node with `n` keys that overflows on insert
(`n > ENTRIES_PER_LEAF_NODE`), `LeafNode.split` leaves the old leaf with
exactly `⌊n/2⌋` keys (the lower half of the cells, order preserved), moves
the upper half `[mid, n)` into the freshly created leaf in the same order,
relinks the sibling chain as `old → new → old's previous right sibling`, and
returns a split carrier promoting the new leaf's first key (which is cell
`mid` of the old leaf) with the old and new page numbers as left/right. -/
theorem leafNode_split_correct (node : LeafRep) (newPN : Int) (n : Nat)
    (hn : node.numKeys = n) (hover : n > ENTRIES_PER_LEAF_NODE) :
    ((node.split newPN).1.numKeys = n / 2) ∧
    ((node.split newPN).1.validCells = node.validCells.take (n / 2)) ∧
    ((node.split newPN).2.1.validCells = node.validCells.drop (n / 2)) ∧
    ((node.split newPN).2.1.numKeys = n - n / 2) ∧
    ((node.split newPN).1.rightSibling = newPN) ∧
    ((node.split newPN).2.1.pageNum = newPN) ∧
    ((node.split newPN).2.1.rightSibling = node.rightSibling) ∧
    ((node.split newPN).2.2.isSplit = true) ∧
    ((node.split newPN).2.2.key = ((node.split newPN).2.1.getCell 0).1) ∧
    ((node.split newPN).2.2.key = (node.getCell (n / 2)).1) ∧
    ((node.split newPN).2.2.leftPN = node.pageNum) ∧
    ((node.split newPN).2.2.rightPN = newPN) := by
  have hn1 : 1 ≤ n := by
    have h0 : (0:Nat) ≤ ENTRIES_PER_LEAF_NODE := Nat.zero_le _
    omega
  subst hn
  have hmid : node.numKeys / 2 < node.numKeys := Nat.div_lt_self (by omega) (by omega)
  rw [LeafRep.split_eq]
  have hdrop : node.validCells.drop (node.numKeys / 2)
      = (List.range' (node.numKeys / 2) (node.numKeys - node.numKeys / 2)).map
          node.getCell := by
    unfold LeafRep.validCells
    rw [← List.map_drop, drop_range]
  have htake : node.validCells.take (node.numKeys / 2)
      = (List.range (node.numKeys / 2)).map node.getCell := by
    unfold LeafRep.validCells
    rw [← List.map_take, List.take_range,
      min_eq_left (by omega : node.numKeys / 2 ≤ node.numKeys)]
  have hkey : ((List.range' (node.numKeys / 2)
      (node.numKeys - node.numKeys / 2)).map node.getCell).getD 0 (0, 0)
      = node.getCell (node.numKeys / 2) := by
    have hpos : node.numKeys - node.numKeys / 2
        = (node.numKeys - node.numKeys / 2 - 1) + 1 := by omega
    rw [hpos, List.range'_succ]
    simp
  refine ⟨rfl, ?_, ?_, rfl, rfl, rfl, rfl, rfl, rfl, ?_, rfl, rfl⟩
  · rw [htake]
    rfl
  · rw [hdrop, LeafRep.validCells_eq_cells _ (by simp)]
  · rw [hkey]

/-- Witness for C4: a leaf with 203 cells `(i, i)` (one over the capacity
`ENTRIES_PER_LEAF_NODE = 202`) split into page 9. -/
theorem leafNode_split_correct_witness :
    ((203:Nat) > ENTRIES_PER_LEAF_NODE) ∧
    (let node : LeafRep :=
      { pageNum := 0, numKeys := 203
        cells := (List.range 203).map (fun i => ((i : Int), (i : Int)))
        rightSibling := -1 }
     ((node.split 9).1.numKeys = 203 / 2) ∧
     ((node.split 9).1.validCells = node.validCells.take (203 / 2)) ∧
     ((node.split 9).2.1.validCells = node.validCells.drop (203 / 2)) ∧
     ((node.split 9).2.1.numKeys = 203 - 203 / 2) ∧
     ((node.split 9).1.rightSibling = 9) ∧
     ((node.split 9).2.1.pageNum = 9) ∧
     ((node.split 9).2.1.rightSibling = node.rightSibling) ∧
     ((node.split 9).2.2.isSplit = true) ∧
     ((node.split 9).2.2.key = ((node.split 9).2.1.getCell 0).1) ∧
     ((node.split 9).2.2.key = (node.getCell (203 / 2)).1) ∧
     ((node.split 9).2.2.leftPN = node.pageNum) ∧
     ((node.split 9).2.2.rightPN = 9)) :=
  ⟨by decide, leafNode_split_correct _ 9 203 rfl (by decide)⟩

/-- `searchList` on a strictly-sorted list containing `key` lands exactly on
the occurrence of `key`. -/
lemma searchList_finds_mem (l : List (Int × Int)) (key : Int)
    (hs : (l.map Prod.fst).Pairwise (· < ·)) (hm : key ∈ l.map Prod.fst) :
    searchList l key < l.length ∧ (l.getD (searchList l key) (0, 0)).1 = key := by
  induction l with
  | nil => cases hm
  | cons e rest ih =>
      simp only [List.map_cons, List.pairwise_cons] at hs
      rcases List.mem_cons.mp hm with heq | hrest
      · by_cases hle : key ≤ e.1
        · refine ⟨by simp [searchList, hle], ?_⟩
          simp [searchList, hle, heq.symm]
        · exfalso; exact hle (le_of_eq heq)
      · have hlt : e.1 < key := hs.1 key hrest
        have hle : ¬ key ≤ e.1 := by omega
        obtain ⟨ih1, ih2⟩ := ih hs.2 hrest
        refine ⟨by simp [searchList, hle]; omega, ?_⟩
        simpa [searchList, hle] using ih2

/-- C5: For every B+-tree leaf node with strictly increasing keys and every
key already present in the leaf, `insert(key, value)` with the update flag
`false` returns the duplicate-key error and leaves the node (its cells, its
key count, its sibling link) exactly as it was. -/
theorem leafNode_insert_duplicate_rejected (node : LeafRep)
    (key value newPN : Int)
    (hsorted : node.keys.Pairwise (· < ·)) (hmem : key ∈ node.keys) :
    node.insert key value false newPN
      = (node, none, { err := some "Cannot insert duplicate key" }) := by
  obtain ⟨h1, h2⟩ := searchList_finds_mem node.validCells key hsorted hmem
  rw [node.validCells_length] at h1
  have h2' : (node.getCell (node.search key)).1 = key := by
    show (node.getCell (searchList node.validCells key)).1 = key
    rw [← LeafRep.validCells_getD node _ h1]
    exact h2
  unfold LeafRep.insert
  rw [if_neg (by simp)]
  rw [if_pos ⟨h1, h2'⟩]

/-- Witness for C5: leaf `[(1,10),(2,20)]`, inserting duplicate key 2. -/
theorem leafNode_insert_duplicate_rejected_witness :
    (let node : LeafRep :=
      { pageNum := 0, numKeys := 2, cells := [(1,10),(2,20)], rightSibling := -1 }
     node.keys.Pairwise (· < ·) ∧ (2:Int) ∈ node.keys ∧
     node.insert 2 99 false 7
      = (node, none, { err := some "Cannot insert duplicate key" })) :=
  ⟨by decide, by decide,
   leafNode_insert_duplicate_rejected _ 2 99 7 (by decide) (by decide)⟩

/-! ## B+-tree cursors and range scans (`btree_subr.go`, cursor part)

The page store of a B+-tree is modelled as a partial map from page numbers
to decoded nodes (`GetPage` + `pageToNode`); `GetPage` failure is `none`.
The root page number is 0 (`ROOT_PN`).  All loops carry fuel; fuel
exhaustion is an error, and every concrete run below is given ample fuel. -/

/-- A decoded B+-tree node: either a leaf (as `LeafRep`) or an internal
node with its key count and its key/page-number arrays. -/
inductive BNode
  | leaf (rep : LeafRep)
  | internal (numKeys : Nat) (keys : List Int) (pns : List Int)
deriving Repr, DecidableEq

/-- First index of `l` with `l[i] ≥ key`, or `l.length` (`sort.Search` with
the monotone predicate `keys[i] ≥ key`, as in `InternalNode.search`). -/
def searchInts (l : List Int) (key : Int) : Nat :=
  match l with
  | [] => 0
  | x :: rest => if key ≤ x then 0 else searchInts rest key + 1

/-- `InternalNode.search` over the valid key region. -/
def internalSearch (numKeys : Nat) (keys : List Int) (key : Int) : Nat :=
  searchInts ((List.range numKeys).map (fun i => keys.getD i 0)) key

/-- `BTreeCursor`: the current leaf node, the cell number within it, and the
end flag. -/
structure BCursor where
  curNode : LeafRep
  cellnum : Nat
  isEnd : Bool
deriving Repr, DecidableEq

/-- The descent loop of `BTreeIndex.TableFind`.  Faithful to the source,
including its slip: on an internal node the code runs
`pn := curNode.search(key); curPage = pager.GetPage(pn)`, using the *search
index* itself as the child page number (instead of `getPNAt`).  On reaching
a leaf the cursor gets `cellnum = leaf.search(key)` and the `isEnd` flag
keeps its zero value `false` (the code never sets it here). -/
def tableFindLoop (pages : Int → Option BNode) (key : Int) :
    Nat → Int → Option BCursor
  | 0, _ => none
  | fuel + 1, pn =>
    match pages pn with
    | none => none
    | some (.internal numKeys keys _) =>
        tableFindLoop pages key fuel (Int.ofNat (internalSearch numKeys keys key))
    | some (.leaf rep) => some { curNode := rep, cellnum := rep.search key, isEnd := false }

/-- `BTreeIndex.TableFind` starting from the root page 0. -/
def tableFind (pages : Int → Option BNode) (fuel : Nat) (key : Int) :
    Option BCursor :=
  tableFindLoop pages key fuel 0

/-- `BTreeCursor.StepForward`.  When `isEnd` is set, follow the right
sibling (error on a negative sentinel), rebind to cell 0 and recurse if the
next leaf is empty; otherwise advance the cell number, setting `isEnd` when
it reaches the key count.  A sibling page that is not a leaf is a structural
error (never exercised in the modelled runs). -/
def stepForward (pages : Int → Option BNode) :
    Nat → BCursor → Except String BCursor
  | 0, _ => .error "out of fuel"
  | fuel + 1, c =>
    if c.isEnd then
      if c.curNode.rightSibling < 0 then
        .error "cannot advance the cursor further"
      else
        match pages c.curNode.rightSibling with
        | some (.leaf nextNode) =>
            let c' : BCursor :=
              { curNode := nextNode, cellnum := 0
                isEnd := decide (0 = nextNode.numKeys) }
            if c'.isEnd then stepForward pages fuel c' else .ok c'
        | _ => .error "GetPage"
    else
      let cell' := c.cellnum + 1
      .ok { c with cellnum := cell', isEnd := decide (cell' ≥ c.curNode.numKeys) }

/-- `BTreeCursor.GetEntry`: error at end, else decode the current cell. -/
def getEntry (c : BCursor) : Except String (Int × Int) :=
  if c.isEnd then .error "getEntry: entry is non-existent"
  else .ok (c.curNode.getCell c.cellnum)

/-- The collection loop of `BTreeIndex.TableFindRange`: while the cursor is
not at the end, read the entry, stop before appending if its key exceeds
`endKey`, else append it and step forward. -/
def rangeLoop (pages : Int → Option BNode) (endKey : Int) :
    Nat → BCursor → List (Int × Int) → Except String (List (Int × Int))
  | 0, _, _ => .error "out of fuel"
  | fuel + 1, c, acc =>
    if c.isEnd then .ok acc
    else
      match getEntry c with
      | .error e => .error e
      | .ok entry =>
          if endKey < entry.1 then .ok acc
          else
            match stepForward pages fuel c with
            | .error e => .error e
            | .ok c' => rangeLoop pages endKey fuel c' (acc ++ [entry])

/-- `BTreeIndex.TableFindRange(startKey, endKey)`. -/
def tableFindRange (pages : Int → Option BNode) (fuel : Nat)
    (startKey endKey : Int) : Except String (List (Int × Int)) :=
  match tableFind pages fuel startKey with
  | none => .error "TableFind failed"
  | some c => rangeLoop pages endKey fuel c []

/-- The single-leaf tree holding `(10,10) … (50,50)`: root page 0 is a leaf
with 5 cells, no right sibling (negative sentinel), the rest of its page
zeroed.  Its nodes satisfy all leaf/internal invariants of the spec. -/
def c3leaf : LeafRep :=
  { pageNum := 0, numKeys := 5
    cells := [(10,10),(20,20),(30,30),(40,40),(50,50)], rightSibling := -1 }

/-- Page store with `c3leaf` as root. -/
def c3pages : Int → Option BNode :=
  fun pn => if pn = 0 then some (.leaf c3leaf) else none

/-- C3 fails on the code: on the valid single-leaf tree `{10..50}` (all
invariants hold) with bounds `55 ≤ 60`, `TableFindRange(55, 60)` returns the
fabricated entry `(0,0)` — `TableFind` leaves `isEnd = false` with
`cellnum = numKeys`, so the loop decodes the zeroed cell past the last entry
— whereas the entries of the tree with keys in `[55, 60]` are `[]`. -/
theorem tableFindRange_fabricates_entry :
    tableFindRange c3pages 20 55 60 = .ok [(0, 0)] ∧
    c3leaf.validCells.filter (fun e => 55 ≤ e.1 ∧ e.1 ≤ 60) = [] ∧
    c3leaf.keys.Pairwise (· < ·) := by
  refine ⟨by rfl, by decide, by decide⟩

/-! ## Pager (`pkg/pager/pager.go`)

Sequential semantics of the pager; the mutex and the per-page locks are
identity on the modelled state.  Frames are the slots of the `frames` list,
addressed by index (the Go code addresses them through `*Page` pointers kept
in the intrusive lists); the free/unpinned/pinned lists hold frame indices,
and the page table maps page numbers to frame indices (the Go `*list.Link`
values resolve to the same frames).  A page's 4096-byte buffer is a
`List Nat` of its bytes; `disk` gives the on-disk bytes of each page of the
backing file, which is `filePages` pages long.  `readLog` instruments
`ReadPageFromDisk` with the list of page numbers read from disk, so that
"no disk read is performed" is statable. -/

/-- `NOPAGE`, the page number of a frame holding no page. -/
def NOPAGE : Int := -1

/-- A `Page`: page number, pin count, dirty flag and the data buffer. -/
structure Page where
  pagenum : Int
  pinCount : Int
  dirty : Bool
  data : List Nat
deriving Repr, DecidableEq

/-- The pager state: the page count, the three frame lists, the page table,
the frame pool, and the backing file (`disk` contents and length), plus the
`readLog` ghost instrumentation. -/
structure PagerState where
  nPages : Int
  freeList : List Nat
  unpinnedList : List Nat
  pinnedList : List Nat
  pageTable : List (Int × Nat)
  frames : List Page
  disk : Int → List Nat
  filePages : Int
  readLog : List Int

/-- Look up a page number in the page table (Go map access, `ok` flag as
`Option`). -/
def lookupPT (pt : List (Int × Nat)) (pagenum : Int) : Option Nat :=
  match pt.find? (fun e => e.1 = pagenum) with
  | some e => some e.2
  | none => none

/-- Go map assignment `pageTable[pagenum] = link`: the new binding shadows
any older one (lookup finds the first binding). -/
def insertPT (pt : List (Int × Nat)) (pagenum : Int) (fid : Nat) :
    List (Int × Nat) :=
  (pagenum, fid) :: pt

/-- Read a frame of the pool. -/
def PagerState.frame (st : PagerState) (fid : Nat) : Page :=
  st.frames.getD fid { pagenum := NOPAGE, pinCount := 0, dirty := false, data := [] }

/-- Mutate a frame of the pool. -/
def PagerState.setFrame (st : PagerState) (fid : Nat) (f : Page → Page) :
    PagerState :=
  { st with frames := st.frames.set fid (f (st.frame fid)) }

/-- `Pager.ReadPageFromDisk`: seek to `pagenum·PAGESIZE` and read one page
into the frame's buffer; reading at or past EOF returns `io.EOF`, which the
code tolerates by leaving the buffer as it was. -/
def readPageFromDisk (st : PagerState) (fid : Nat) (pagenum : Int) :
    PagerState :=
  let st1 := { st with readLog := st.readLog ++ [pagenum] }
  if pagenum < st.filePages then
    st1.setFrame fid (fun p => { p with data := st.disk pagenum })
  else st1

/-- `Pager.FlushPage` (under a backing file): write the frame's buffer at
offset `pagenum·PAGESIZE`. -/
def flushPage (st : PagerState) (fid : Nat) : PagerState :=
  let p := st.frame fid
  { st with
    disk := fun pn => if pn = p.pagenum then p.data else st.disk pn
    filePages := max st.filePages (p.pagenum + 1) }

/-- `Pager.NewPage`: take the head of the free list, else the head of the
unpinned list (flushing it first when dirty), else fail; pin the chosen
frame with count 1, assign it `pagenum`, bump `nPages`, push it on the
pinned list's tail and bind it in the page table.  The evicted page's stale
page-table binding is not removed (as in the source). -/
def newPage (st : PagerState) (pagenum : Int) :
    PagerState × Except String Nat :=
  match st.freeList with
  | fid :: rest =>
      let st1 := { st with freeList := rest }
      let st2 := st1.setFrame fid
        (fun p => { p with pinCount := 1, pagenum := pagenum })
      ({ st2 with
          nPages := st2.nPages + 1
          pinnedList := st2.pinnedList ++ [fid]
          pageTable := insertPT st2.pageTable pagenum fid }, .ok fid)
  | [] =>
    match st.unpinnedList with
    | [] => (st, .error "No pages available!")
    | fid :: rest =>
        let st1 := if (st.frame fid).dirty then flushPage st fid else st
        let st2 := { st1 with unpinnedList := rest }
        let st3 := st2.setFrame fid
          (fun p => { p with pinCount := 1, pagenum := pagenum })
        ({ st3 with
            nPages := st3.nPages + 1
            pinnedList := st3.pinnedList ++ [fid]
            pageTable := insertPT st3.pageTable pagenum fid }, .ok fid)

/-- `Pager.GetPage`, faithfully including its slip: in the miss branch the
code declares `page, err := pager.NewPage(pagenum)` with `:=`, shadowing the
named return value `page`; the subsequent `return page, nil` therefore
returns the *outer*, never-assigned `page`, i.e. `nil` (`none` here), even
though `NewPage` did allocate, pin and register a frame.  On a hit the code
re-reads the page from disk before adjusting the pin count. -/
def getPage (st : PagerState) (pagenum : Int) :
    PagerState × Except String (Option Nat) :=
  if pagenum > st.nPages + 1 then
    (st, .error "Invalid page number")
  else
    match lookupPT st.pageTable pagenum with
    | none =>
        match newPage st pagenum with
        | (st1, .error e) => (st1, .error e)
        | (st1, .ok fid) =>
            let st2 := readPageFromDisk st1 fid pagenum
            (st2, .ok none)
    | some fid =>
        let st1 := readPageFromDisk st fid pagenum
        if (st1.frame fid).pinCount = 0 then
          let st2 := st1.setFrame fid (fun p => { p with pinCount := 1 })
          ({ st2 with
              unpinnedList := st2.unpinnedList.filter (fun x => x ≠ fid)
              pinnedList := st2.pinnedList ++ [fid] }, .ok (some fid))
        else
          (st1.setFrame fid (fun p => { p with pinCount := p.pinCount + 1 }),
            .ok (some fid))

/-- A fresh pager over an empty backing file, with one free frame (the
frame pool size `NUMPAGES` is a configuration constant; one frame suffices
for the run below). -/
def c1init : PagerState :=
  { nPages := 0
    freeList := [0]
    unpinnedList := []
    pinnedList := []
    pageTable := []
    frames := [{ pagenum := NOPAGE, pinCount := 0, dirty := false, data := [] }]
    disk := fun _ => []
    filePages := 0
    readLog := [] }

/-- C1 fails on the code: on a fresh pager (no page resident), page number 0
satisfies `0 ≤ 0 ≤ nPages`, yet `GetPage(0)` returns *no error and a nil
page* — the shadowed `page, err :=` in the miss branch discards `NewPage`'s
result — even though the side effects did happen: frame 0 was bound to page
0 in the page table, pinned with pin count 1, and placed on the pinned
list. -/
theorem getPage_miss_returns_nil :
    (getPage c1init 0).2 = .ok none ∧
    lookupPT (getPage c1init 0).1.pageTable 0 = some 0 ∧
    ((getPage c1init 0).1.frame 0).pinCount = 1 ∧
    ((getPage c1init 0).1.frame 0).pagenum = 0 ∧
    (getPage c1init 0).1.pinnedList = [0] := by
  refine ⟨rfl, rfl, rfl, rfl, rfl⟩

/-- A pager with page 0 resident and pinned (pin count 1): its in-memory
buffer is `[1,2,3]` while the disk holds `[9,9]` for page 0 (the buffer was
legitimately modified in memory; the page is dirty and unflushed). -/
def c2init : PagerState :=
  { nPages := 1
    freeList := []
    unpinnedList := []
    pinnedList := [0]
    pageTable := [(0, 0)]
    frames := [{ pagenum := 0, pinCount := 1, dirty := true, data := [1, 2, 3] }]
    disk := fun pn => if pn = 0 then [9, 9] else []
    filePages := 1
    readLog := [] }

/-- C2 fails on the code: `GetPage(0)` on the resident page 0 does perform a
disk read (`readLog` becomes `[0]`) and overwrites the page's buffer with
the disk bytes `[9,9]` (the claim requires the buffer unchanged and no disk
read on a hit).  The pin-count part of the claim does hold: the count goes
from 1 to 2 and the page itself is returned. -/
theorem getPage_hit_rereads_disk :
    (getPage c2init 0).2 = .ok (some 0) ∧
    (getPage c2init 0).1.readLog = [0] ∧
    ((getPage c2init 0).1.frame 0).data = [9, 9] ∧
    ((getPage c2init 0).1.frame 0).pinCount = 2 := by
  refine ⟨rfl, rfl, rfl, rfl⟩

/-! ## Hash buckets and the probe phase of the Grace join
(`pkg/hash/bucket.go`, `src/unnamed/part_001`)

A bucket page holds a local depth, a key count and up to `BUCKETSIZE` cells.
Every bucket read (`getCell i`, `Find`, `Select`) has `i < numKeys`, and
every `updateNumKeys(n+1)` is preceded by writing cell `n`, so the
observable bucket state is exactly its valid entry list; the model carries
that list directly.  `BUCKETSIZE` is defined in a hash-package file absent
from `src/`, so it stays a parameter `B` of the operations that consult it
(the spec fixes no value; its test scenario uses 4). -/

/-- A hash bucket: local depth and the valid entries of its page. -/
structure HashBucket where
  depth : Nat
  entries : List (Int × Int)
deriving Repr, DecidableEq

/-- `HashBucket.Find`: linear scan, first entry with the given key. -/
def HashBucket.find (bucket : HashBucket) (key : Int) : Option (Int × Int) :=
  bucket.entries.find? (fun e => e.1 = key)

/-- `HashBucket.Insert`: append the pair at index `numKeys`, bump the count,
and report whether the bucket now overflows (`numKeys > BUCKETSIZE`). -/
def HashBucket.insertEntry (B : Nat) (bucket : HashBucket) (key value : Int) :
    HashBucket × Bool :=
  let bucket1 : HashBucket := { bucket with entries := bucket.entries ++ [(key, value)] }
  (bucket1, decide (bucket1.entries.length > B))

/-- A join result: the pair of emitted entries. -/
abbrev EntryPair : Type := (Int × Int) × (Int × Int)

/-- `flip`: swap key and value of an entry. -/
def flipEntry (e : Int × Int) : Int × Int := (e.2, e.1)

/-- `sendResult`: a `select` between `ctx.Done()` and the channel send.  The
context is the `cancelled` flag; once it is set the send is abandoned and
the context's error is returned, else the result is appended to the channel
buffer and `nil` comes back.  (Go's `select` picks randomly when both are
ready; the model resolves it the way the claim reads it, abandoning the
send once cancelled — the claim's error-return half is what the code
breaks.) -/
def sendResult (cancelled : Bool) (resultsChan : List EntryPair)
    (result : EntryPair) : List EntryPair × Except String Unit :=
  if cancelled then (resultsChan, .error "context canceled")
  else (resultsChan ++ [result], .ok ())

/-- The per-left-entry body of `probeBuckets`' probe loop, faithful to the
source: the Bloom filter is consulted on `le.GetKey()`, a positive hit does
a real `Find` in the right bucket, and the emitted pair un-flips whichever
side was flipped during build.  The return value of `sendResult` is
discarded, exactly as in the source (`sendResult(ctx, resultsChan, …)` as a
bare statement). -/
def probeStep (xx murmur : Int → Nat → Nat) (cancelled : Bool)
    (rBucket : HashBucket) (joinOnLeftKey joinOnRightKey : Bool)
    (filter : BloomFilter) (chan : List EntryPair) (le : Int × Int) :
    List EntryPair :=
  if joinOnLeftKey then
    if filter.containsKey xx murmur le.1 then
      if joinOnRightKey then
        match rBucket.find le.1 with
        | some re => (sendResult cancelled chan (le, re)).1
        | none => chan
      else
        match rBucket.find le.1 with
        | some re => (sendResult cancelled chan (le, flipEntry re)).1
        | none => chan
    else chan
  else
    if filter.containsKey xx murmur le.1 then
      if joinOnRightKey then
        match rBucket.find le.1 with
        | some re => (sendResult cancelled chan (flipEntry le, re)).1
        | none => chan
      else
        match rBucket.find le.1 with
        | some re => (sendResult cancelled chan (flipEntry le, flipEntry re)).1
        | none => chan
    else chan

/-- `probeBuckets`: select both buckets, build a Bloom filter from the right
bucket's keys, stream the left bucket through it, and return `nil` — the
function ends with `return nil` and never propagates `sendResult`'s
error. -/
def probeBuckets (xx murmur : Int → Nat → Nat) (cancelled : Bool)
    (resultsChan : List EntryPair) (lBucket rBucket : HashBucket)
    (joinOnLeftKey joinOnRightKey : Bool) :
    List EntryPair × Except String Unit :=
  let rentries := rBucket.entries
  let lentries := lBucket.entries
  let filter := rentries.foldl
    (fun f re => f.insertKey xx murmur re.1) (CreateFilter DEFAULT_FILTER_SIZE)
  (lentries.foldl
    (probeStep xx murmur cancelled rBucket joinOnLeftKey joinOnRightKey filter)
    resultsChan, .ok ())

/-- C9 fails on the code: with the context already cancelled and a matching
pair present (left bucket `[(1,10)]`, right bucket `[(1,20)]`, both sides
joined on key), `probeBuckets` abandons the send (the channel stays empty —
the first half of the claim) but returns `nil` (`.ok ()`), not the
context's cancellation error: the source discards `sendResult`'s return
value.  The same input without cancellation does emit the pair, so a send
really was suppressed. -/
theorem probeBuckets_cancelled_returns_nil :
    probeBuckets (fun k n => k.toNat % n) (fun k n => (k.toNat * 7) % n) true
        [] ⟨1, [(1, 10)]⟩ ⟨1, [(1, 20)]⟩ true true = ([], .ok ()) ∧
    probeBuckets (fun k n => k.toNat % n) (fun k n => (k.toNat * 7) % n) false
        [] ⟨1, [(1, 10)]⟩ ⟨1, [(1, 20)]⟩ true true
      = ([((1, 10), (1, 20))], .ok ()) := by
  refine ⟨by rfl, by rfl⟩

/-! ## Recovery manager rollback (`src/unnamed/part_002`)

The database visible to the recovery manager is the map
`table name × key → value`; transaction ids are `Nat`.  The transactional
handlers `HandleInsert`/`HandleUpdate`/`HandleDelete` that `Undo` calls
live in a recovery-package file absent from `src/`; they are modelled from
the spec (§6: the handlers parse `insert K V into T` / `update T K V` /
`delete K from T` and apply the operation to the named index — duplicate
inserts and absent updates/deletes fail).  `toString`/`FromString` of a log
record round-trip (§6: the textual log encoding round-trips), so the
`FromString(log.toString())` step of `Rollback` is the identity on the
in-memory record. -/

/-- A database: per table, a partial map from keys to values. -/
def Database := String → Int → Option Int

/-- Point update of a database. -/
def dbSet (d : Database) (tbl : String) (key : Int) (v : Option Int) :
    Database :=
  fun t k => if t = tbl ∧ k = key then v else d t k

/-- The `action` field of an edit log. -/
inductive Action
  | INSERT
  | UPDATE
  | DELETE
deriving Repr, DecidableEq

/-- Log records (`tableLog` and `checkpointLog` are not needed by the
rollback path but belong to the record type). -/
inductive LogRec
  | tableLog (tblType tblName : String)
  | startLog (id : Nat)
  | editLog (id : Nat) (tablename : String) (action : Action)
      (key oldval newval : Int)
  | commitLog (id : Nat)
  | checkpointLog (ids : List Nat)
deriving Repr, DecidableEq

/-- An edit as the user performs and records it. -/
structure EditRec where
  tbl : String
  act : Action
  key : Int
  oldval : Int
  newval : Int
deriving Repr, DecidableEq

/-- The edit log record written by `RecoveryManager.Edit` for an edit. -/
def toLog (id : Nat) (e : EditRec) : LogRec :=
  .editLog id e.tbl e.act e.key e.oldval e.newval

/-- Modelled from the spec: `db.HandleInsert` via `insert K V into T` —
fails on a duplicate key, else binds it. -/
def handleInsert (d : Database) (tbl : String) (key value : Int) :
    Except String Database :=
  match d tbl key with
  | some _ => .error "duplicate key"
  | none => .ok (dbSet d tbl key (some value))

/-- Modelled from the spec: `db.HandleUpdate` via `update T K V` — fails on
an absent key, else overwrites it. -/
def handleUpdate (d : Database) (tbl : String) (key value : Int) :
    Except String Database :=
  match d tbl key with
  | some _ => .ok (dbSet d tbl key (some value))
  | none => .error "not found"

/-- Modelled from the spec: `db.HandleDelete` via `delete K from T` — fails
on an absent key, else removes it. -/
def handleDelete (d : Database) (tbl : String) (key : Int) :
    Except String Database :=
  match d tbl key with
  | some _ => .ok (dbSet d tbl key none)
  | none => .error "not found"

/-- The database mutation the user's edit performs (the claim's premise:
each edit is applied to the database and recorded through `Edit`). -/
def applyAction (d : Database) (e : EditRec) : Database :=
  match e.act with
  | .INSERT => dbSet d e.tbl e.key (some e.newval)
  | .UPDATE => dbSet d e.tbl e.key (some e.newval)
  | .DELETE => dbSet d e.tbl e.key none

/-- Apply a sequence of edits left to right. -/
def applyEs (d : Database) (es : List EditRec) : Database :=
  es.foldl applyAction d

/-- `RecoveryManager.Undo` on an edit log: issue the inverse through the
transactional handlers — `insert → delete key`, `update → update to oldval`,
`delete → insert(key, oldval)`. -/
def undoAction (d : Database) (e : EditRec) : Except String Database :=
  match e.act with
  | .INSERT => handleDelete d e.tbl e.key
  | .UPDATE => handleUpdate d e.tbl e.key e.oldval
  | .DELETE => handleInsert d e.tbl e.key e.oldval

/-- The edit record is consistent with the database it is applied to:
an insert's key is absent; an update/delete's key holds `oldval`. -/
def WfEdit (d : Database) (e : EditRec) : Prop :=
  match e.act with
  | .INSERT => d e.tbl e.key = none
  | .UPDATE => d e.tbl e.key = some e.oldval
  | .DELETE => d e.tbl e.key = some e.oldval

/-- Each edit of the trace is consistent with the database state at its
point. -/
def WfTrace (d : Database) : List EditRec → Prop
  | [] => True
  | e :: rest => WfEdit d e ∧ WfTrace (applyAction d e) rest

/-- The recovery manager's state: the database it manages, the in-memory
per-transaction stacks (Go map, newest binding first), the log file, and
the transaction manager's set of running transactions. -/
structure RecState where
  db : Database
  txStack : List (Nat × List LogRec)
  logFile : List LogRec
  tmActive : List Nat

/-- Go map read `rm.txStack[clientId]` (zero value `nil` when absent). -/
def stackLookup (s : List (Nat × List LogRec)) (id : Nat) : List LogRec :=
  match s.find? (fun e => e.1 = id) with
  | some e => e.2
  | none => []

/-- Go map read with presence flag. -/
def stackFind (s : List (Nat × List LogRec)) (id : Nat) :
    Option (List LogRec) :=
  match s.find? (fun e => e.1 = id) with
  | some e => some e.2
  | none => none

/-- Go map assignment (new binding shadows the old one). -/
def stackSet (s : List (Nat × List LogRec)) (id : Nat) (v : List LogRec) :
    List (Nat × List LogRec) :=
  (id, v) :: s

/-- Go map `delete`. -/
def stackDelete (s : List (Nat × List LogRec)) (id : Nat) :
    List (Nat × List LogRec) :=
  s.filter (fun e => e.1 ≠ id)

/-- `RecoveryManager.Start`: write a start log and reset the transaction's
stack to `[startLog]`. -/
def rmStart (st : RecState) (id : Nat) : RecState :=
  { st with
    logFile := st.logFile ++ [.startLog id]
    txStack := stackSet st.txStack id [.startLog id] }

/-- `RecoveryManager.Edit`: write the edit log and push it on the
transaction's stack. -/
def rmEdit (st : RecState) (id : Nat) (e : EditRec) : RecState :=
  { st with
    logFile := st.logFile ++ [toLog id e]
    txStack := stackSet st.txStack id (stackLookup st.txStack id ++ [toLog id e]) }

/-- `RecoveryManager.Commit`: drop the transaction's stack and write a
commit log. -/
def rmCommit (st : RecState) (id : Nat) : RecState :=
  { st with
    txStack := stackDelete st.txStack id
    logFile := st.logFile ++ [.commitLog id] }

/-- The transaction manager's `Commit` (the manager itself is outside
`src/`; per the spec it just ends the running transaction). -/
def tmCommit (st : RecState) (id : Nat) : RecState :=
  { st with tmActive := st.tmActive.filter (fun x => x ≠ id) }

/-- The user-level step the claim quantifies over: apply the edit to the
database, then record it through `Edit`. -/
def runEdits (st : RecState) (id : Nat) (es : List EditRec) : RecState :=
  es.foldl (fun s e => rmEdit { s with db := applyAction s.db e } id e) st

/-- The index walk of `RecoveryManager.Rollback`: `i := len(logs)-1;
for i > 0 { Undo(FromString(logs[i].toString())); i-- }` — the start log at
index 0 is skipped, `FromString∘toString` is the identity, `Undo`'s error
is discarded (on error the handlers leave the database unchanged), and
non-edit logs make `Undo` return an error (also discarded). -/
def rollbackLoop (logs : List LogRec) (d : Database) (i : Nat) : Database :=
  if i = 0 then d
  else
    let d' := match logs.getD i (.commitLog 0) with
      | .editLog _ tbl act key oldval newval =>
          match undoAction d ⟨tbl, act, key, oldval, newval⟩ with
          | .ok d2 => d2
          | .error _ => d
      | _ => d
    rollbackLoop logs d' (i - 1)
termination_by i
decreasing_by omega

/-- `RecoveryManager.Rollback`: walk the transaction's stack from newest to
oldest (skipping index 0, the start log), undoing each edit through the
transactional handlers, then `rm.Commit` and `rm.tm.Commit`. -/
def rmRollback (st : RecState) (id : Nat) : RecState :=
  let logs := stackLookup st.txStack id
  let st1 := { st with db := rollbackLoop logs st.db (logs.length - 1) }
  tmCommit (rmCommit st1 id) id

lemma dbSet_same (d : Database) (tbl : String) (key : Int) (v : Option Int) :
    dbSet d tbl key v tbl key = v := by
  simp [dbSet]

lemma dbSet_dbSet (d : Database) (tbl : String) (key : Int)
    (v w : Option Int) :
    dbSet (dbSet d tbl key v) tbl key w = dbSet d tbl key w := by
  funext t k
  by_cases h : t = tbl ∧ k = key <;> simp [dbSet, h]

lemma dbSet_self (d : Database) (tbl : String) (key : Int) {v : Option Int}
    (h : d tbl key = v) : dbSet d tbl key v = d := by
  funext t k
  by_cases hc : t = tbl ∧ k = key
  · obtain ⟨rfl, rfl⟩ := hc
    simp [dbSet, h]
  · simp [dbSet, hc]

/-- Undoing a consistent edit through the transactional handlers restores
the database it was applied to. -/
lemma undo_applyAction (d : Database) (e : EditRec) (hwf : WfEdit d e) :
    undoAction (applyAction d e) e = .ok d := by
  obtain ⟨tbl, act, key, oldv, newv⟩ := e
  cases act with
  | INSERT =>
      simp only [WfEdit] at hwf
      show handleDelete (dbSet d tbl key (some newv)) tbl key = .ok d
      unfold handleDelete
      rw [dbSet_same]
      rw [dbSet_dbSet, dbSet_self d tbl key hwf]
  | UPDATE =>
      simp only [WfEdit] at hwf
      show handleUpdate (dbSet d tbl key (some newv)) tbl key oldv = .ok d
      unfold handleUpdate
      rw [dbSet_same]
      rw [dbSet_dbSet, dbSet_self d tbl key hwf]
  | DELETE =>
      simp only [WfEdit] at hwf
      show handleInsert (dbSet d tbl key none) tbl key oldv = .ok d
      unfold handleInsert
      rw [dbSet_same]
      rw [dbSet_dbSet, dbSet_self d tbl key hwf]

lemma applyEs_append (d : Database) (es : List EditRec) (e : EditRec) :
    applyEs d (es ++ [e]) = applyAction (applyEs d es) e := by
  simp [applyEs]

lemma wfTrace_snoc (d : Database) (es : List EditRec) (e : EditRec)
    (h : WfTrace d (es ++ [e])) :
    WfTrace d es ∧ WfEdit (applyEs d es) e := by
  induction es generalizing d with
  | nil =>
      simpa [WfTrace, applyEs] using h
  | cons x xs ih =>
      obtain ⟨hx, hrest⟩ := h
      obtain ⟨h1, h2⟩ := ih (applyAction d x) hrest
      exact ⟨⟨hx, h1⟩, by simpa [applyEs] using h2⟩

/-- Unfold one iteration of the rollback walk. -/
lemma rollbackLoop_succ (logs : List LogRec) (d : Database) (n : Nat) :
    rollbackLoop logs d (n + 1)
      = rollbackLoop logs
          (match logs.getD (n + 1) (.commitLog 0) with
            | .editLog _ tbl act key oldval newval =>
                match undoAction d ⟨tbl, act, key, oldval, newval⟩ with
                | .ok d2 => d2
                | .error _ => d
            | _ => d) n := by
  rw [rollbackLoop]
  simp

/-- The rollback walk only reads the stack entries at indices `[1, i]`. -/
lemma rollbackLoop_congr (logs₁ logs₂ : List LogRec) (d : Database) (i : Nat)
    (h : ∀ j, 1 ≤ j → j ≤ i →
      logs₁.getD j (.commitLog 0) = logs₂.getD j (.commitLog 0)) :
    rollbackLoop logs₁ d i = rollbackLoop logs₂ d i := by
  induction i generalizing d with
  | zero => simp [rollbackLoop]
  | succ n ih =>
      rw [rollbackLoop_succ, rollbackLoop_succ, h (n + 1) (by omega) (by omega)]
      exact ih _ (fun j hj1 hj2 => h j hj1 (by omega))

lemma getD_cons_map_toLog (id : Nat) (es : List EditRec) (j : Nat)
    (hj : j < es.length) :
    (LogRec.startLog id :: es.map (toLog id)).getD (j + 1) (.commitLog 0)
      = toLog id (es.getD j ⟨"", .INSERT, 0, 0, 0⟩) := by
  have h1 : j < (es.map (toLog id)).length := by simpa using hj
  show (es.map (toLog id)).getD j (.commitLog 0) = _
  rw [List.getD_eq_getElem _ _ h1, List.getElem_map,
    ← List.getD_eq_getElem es ⟨"", .INSERT, 0, 0, 0⟩ hj]

/-- Walking the stack `[startLog, E1, …, En]` from index `n` down to 1 over
the database `applyEs d es` undoes every edit, newest first, and lands back
on `d`. -/
lemma rollbackLoop_restores (id : Nat) (d : Database) (es : List EditRec)
    (hwf : WfTrace d es) :
    rollbackLoop (LogRec.startLog id :: es.map (toLog id)) (applyEs d es)
      es.length = d := by
  induction es using List.reverseRecOn generalizing d with
  | nil => simp [rollbackLoop, applyEs]
  | append_singleton es e ih =>
      obtain ⟨hwf1, hwf2⟩ := wfTrace_snoc d es e hwf
      have hlen : (es ++ [e]).length = es.length + 1 := by simp
      rw [hlen, rollbackLoop, if_neg (by omega)]
      have hget : (LogRec.startLog id :: ((es ++ [e]).map (toLog id))).getD
          (es.length + 1) (.commitLog 0) = toLog id e := by
        rw [getD_cons_map_toLog id (es ++ [e]) es.length (by simp)]
        congr 1
        rw [List.getD_eq_getElem _ _ (by simp : es.length < (es ++ [e]).length)]
        simp
      rw [hget]
      show rollbackLoop _ (match undoAction (applyEs d (es ++ [e])) e with
        | .ok d2 => d2 | .error _ => applyEs d (es ++ [e])) (es.length + 1 - 1) = d
      rw [applyEs_append, undo_applyAction _ _ hwf2]
      show rollbackLoop _ (applyEs d es) (es.length + 1 - 1) = d
      have hstep : es.length + 1 - 1 = es.length := by omega
      rw [hstep]
      rw [rollbackLoop_congr (LogRec.startLog id :: ((es ++ [e]).map (toLog id)))
        (LogRec.startLog id :: (es.map (toLog id))) _ es.length ?hagree]
      · exact ih d hwf1
      case hagree =>
        intro j hj1 hj2
        obtain ⟨j', rfl⟩ : ∃ j', j = j' + 1 := ⟨j - 1, by omega⟩
        rw [getD_cons_map_toLog id (es ++ [e]) j' (by simp; omega),
          getD_cons_map_toLog id es j' (by omega)]
        congr 1
        rw [List.getD_eq_getElem (es ++ [e]) _ (by simp; omega),
          List.getD_eq_getElem es _ (by omega)]
        rw [List.getElem_append_left (by omega)]

lemma runEdits_db (st : RecState) (id : Nat) (es : List EditRec) :
    (runEdits st id es).db = applyEs st.db es := by
  induction es generalizing st with
  | nil => simp [runEdits, applyEs]
  | cons e rest ih =>
      show (runEdits (rmEdit { st with db := applyAction st.db e } id e) id rest).db = _
      rw [ih]
      simp [rmEdit, applyEs]

lemma runEdits_stack (st : RecState) (id : Nat) (es : List EditRec) :
    stackLookup (runEdits st id es).txStack id
      = stackLookup st.txStack id ++ es.map (toLog id) := by
  induction es generalizing st with
  | nil => simp [runEdits]
  | cons e rest ih =>
      show stackLookup (runEdits (rmEdit { st with db := applyAction st.db e } id e)
          id rest).txStack id = _
      rw [ih]
      simp [rmEdit, stackLookup, stackSet, List.find?]

lemma runEdits_log (st : RecState) (id : Nat) (es : List EditRec) :
    (runEdits st id es).logFile = st.logFile ++ es.map (toLog id) := by
  induction es generalizing st with
  | nil => simp [runEdits]
  | cons e rest ih =>
      show (runEdits (rmEdit { st with db := applyAction st.db e } id e) id rest).logFile = _
      rw [ih]
      simp [rmEdit]

lemma runEdits_tm (st : RecState) (id : Nat) (es : List EditRec) :
    (runEdits st id es).tmActive = st.tmActive := by
  induction es generalizing st with
  | nil => simp [runEdits]
  | cons e rest ih =>
      show (runEdits (rmEdit { st with db := applyAction st.db e } id e) id rest).tmActive = _
      rw [ih]
      simp [rmEdit]

lemma stackFind_delete (s : List (Nat × List LogRec)) (id : Nat) :
    stackFind (stackDelete s id) id = none := by
  unfold stackFind stackDelete
  induction s with
  | nil => simp
  | cons x xs ih =>
      by_cases h : x.1 = id
      · simpa [h] using ih
      · simpa [List.find?, h] using ih

/-- C7: For every transaction executed single-threadedly — `Start(T)`, then
edits `E1 … En` each applied to the database and recorded through `Edit`
(each consistent with the state it is applied to) — `Rollback(T)` restores
the database to its state from immediately before `Start(T)`, and `T` is
then committed: its stack entry is gone, a commit record follows the
transaction's records in the log, and the transaction manager no longer
runs it. -/
theorem rollback_restores_database (st : RecState) (id : Nat)
    (es : List EditRec) (hwf : WfTrace st.db es) :
    ((rmRollback (runEdits (rmStart st id) id es) id).db = st.db) ∧
    (stackFind (rmRollback (runEdits (rmStart st id) id es) id).txStack id
      = none) ∧
    ((rmRollback (runEdits (rmStart st id) id es) id).logFile
      = st.logFile ++ [.startLog id] ++ es.map (toLog id) ++ [.commitLog id]) ∧
    (id ∉ (rmRollback (runEdits (rmStart st id) id es) id).tmActive) := by
  have hstack : stackLookup (runEdits (rmStart st id) id es).txStack id
      = LogRec.startLog id :: es.map (toLog id) := by
    rw [runEdits_stack]
    simp [rmStart, stackLookup, stackSet, List.find?]
  have hdb : (runEdits (rmStart st id) id es).db = applyEs st.db es := by
    rw [runEdits_db]
    rfl
  refine ⟨?_, ?_, ?_, ?_⟩
  · show rollbackLoop (stackLookup (runEdits (rmStart st id) id es).txStack id)
        (runEdits (rmStart st id) id es).db
        ((stackLookup (runEdits (rmStart st id) id es).txStack id).length - 1)
      = st.db
    rw [hstack, hdb]
    have hlen : (LogRec.startLog id :: es.map (toLog id)).length - 1 = es.length := by
      simp
    rw [hlen]
    exact rollbackLoop_restores id st.db es hwf
  · show stackFind (stackDelete (runEdits (rmStart st id) id es).txStack id) id = none
    exact stackFind_delete _ id
  · show (runEdits (rmStart st id) id es).logFile ++ [.commitLog id] = _
    rw [runEdits_log]
    simp [rmStart]
  · show id ∉ ((runEdits (rmStart st id) id es).tmActive.filter (fun x => x ≠ id))
    simp [List.mem_filter]

/-- Witness for C7: empty initial database, transaction 1 performing
`insert (t, 5) := 9`, then rolling back. -/
theorem rollback_restores_database_witness :
    (let st : RecState :=
      { db := fun _ _ => none, txStack := [], logFile := [], tmActive := [1] }
     let es : List EditRec := [⟨"t", .INSERT, 5, 0, 9⟩]
     WfTrace st.db es ∧
     (((rmRollback (runEdits (rmStart st 1) 1 es) 1).db = st.db) ∧
      (stackFind (rmRollback (runEdits (rmStart st 1) 1 es) 1).txStack 1 = none) ∧
      ((rmRollback (runEdits (rmStart st 1) 1 es) 1).logFile
        = st.logFile ++ [.startLog 1] ++ es.map (toLog 1) ++ [.commitLog 1]) ∧
      (1 ∉ (rmRollback (runEdits (rmStart st 1) 1 es) 1).tmActive))) :=
  ⟨⟨rfl, trivial⟩,
   rollback_restores_database
     { db := fun _ _ => none, txStack := [], logFile := [], tmActive := [1] } 1
     [⟨"t", .INSERT, 5, 0, 9⟩] ⟨rfl, trivial⟩⟩

/-! ## Extendible hash table (`src/unnamed/part_000`, the lock-explicit
variant the spec adopts as normative, with `pkg/hash/bucket.go`)

The table state is the global depth, the directory slice (`buckets`, a list
of bucket page numbers) and the bucket pages themselves, addressed by page
number in allocation order (`NewHashBucket` takes the pager's next free
page).  `Hasher` lives in a hash-package file absent from `src/`; per the
spec the directory index is `hash(key) & ((1<<d) − 1)` for a fixed 64-bit
hash, so it is modelled over an abstract hash `h : Int → Nat`.  All lock
operations are identity on this state.  `Split` recurses; the model gives
it fuel and a run that exhausts the fuel returns `none` (the claim is about
runs of `Insert` that return). -/

/-- `Hasher(key, depth) = hash(key) mod 2^depth` (modelled from the spec;
`h` is the abstract 64-bit hash function). -/
def hasher (h : Int → Nat) (key : Int) (depth : Nat) : Nat :=
  h key % 2 ^ depth

/-- The extendible hash table: global depth, directory, bucket pages. -/
structure HashTable where
  depth : Nat
  dir : List Nat
  store : List HashBucket
deriving Repr, DecidableEq

/-- Directory slot read (`table.buckets[i]`). -/
def HashTable.dirGet (t : HashTable) (i : Nat) : Nat :=
  t.dir.getD i 0

/-- The bucket a directory slot points at. -/
def HashTable.bucketAt (t : HashTable) (i : Nat) : HashBucket :=
  t.store.getD (t.dirGet i) ⟨0, []⟩

/-- The bucket at page `pn`. -/
def focal (t : HashTable) (pn : Nat) : HashBucket :=
  t.store.getD pn ⟨0, []⟩

/-- `HashTable.ExtendTable`: bump the global depth and append a copy of the
directory to itself. -/
def extendTable (t : HashTable) : HashTable :=
  { t with depth := t.depth + 1, dir := t.dir ++ t.dir }

/-- The directory walk of `Split` step 5 as it acts slot by slot: the Go
loop `for i := newHash; i < 2^d; i += 2^power` repoints exactly the slots
`i` with `i % 2^power = newHash` (since `newHash < 2^power`); this
recursion visits every slot and rewrites those. -/
def repointFrom (pn m nh : Nat) : Nat → List Nat → List Nat
  | _, [] => []
  | i, x :: xs => (if i % m = nh then pn else x) :: repointFrom pn m nh (i + 1) xs

/-- Repoint the slots of `dir` congruent to `nh (mod m)` at the new bucket
page `pn`. -/
def repoint (dir : List Nat) (m nh pn : Nat) : List Nat :=
  repointFrom pn m nh 0 dir

/-- The entries that stay in the split bucket: those whose hash at the new
local depth differs from `newHash` (the redistribution loop's `else`
branch, order preserved). -/
def srKept (h : Int → Nat) (b : HashBucket) (hsh : Nat) : List (Int × Int) :=
  b.entries.filter
    (fun e => ¬(hasher h e.1 (b.depth + 1) = hsh % 2 ^ b.depth + 2 ^ b.depth))

/-- The entries that move to the new bucket: those whose hash at the new
local depth equals `newHash` (order preserved). -/
def srMoved (h : Int → Nat) (b : HashBucket) (hsh : Nat) : List (Int × Int) :=
  b.entries.filter
    (fun e => hasher h e.1 (b.depth + 1) = hsh % 2 ^ b.depth + 2 ^ b.depth)

/-- One round of `HashTable.Split` on the bucket at page `pn` (the Go
function receives that bucket by pointer) whose slots carry hash `hsh`:
compute `oldHash`/`newHash` from the bucket's local depth, double the
directory first when `ld = d`, raise the local depth, allocate the sibling
bucket at the next page (`t.store.length`), redistribute the entries by
their hash at the new local depth, and repoint the `newHash` slots. -/
def splitRound (h : Int → Nat) (t : HashTable) (pn hsh : Nat) : HashTable :=
  let b := focal t pn
  let nh := hsh % 2 ^ b.depth + 2 ^ b.depth
  let t1 := if b.depth = t.depth then extendTable t else t
  { depth := t1.depth
    dir := repoint t1.dir (2 ^ (b.depth + 1)) nh t.store.length
    store := t1.store.set pn ⟨b.depth + 1, srKept h b hsh⟩
      ++ [⟨b.depth + 1, srMoved h b hsh⟩] }

/-- `HashTable.Split` with fuel: perform a round, then recurse on the old
bucket while it still has `≥ BUCKETSIZE` entries, else on the new one
(`oldNKeys`/`newNKeys` are the lengths of the kept/moved entry lists). -/
def splitB (h : Int → Nat) (B : Nat) :
    Nat → HashTable → Nat → Nat → Option HashTable
  | 0, _, _, _ => none
  | fuel + 1, t, pn, hsh =>
      let b := focal t pn
      if B ≤ (srKept h b hsh).length then
        splitB h B fuel (splitRound h t pn hsh) pn (hsh % 2 ^ b.depth)
      else if B ≤ (srMoved h b hsh).length then
        splitB h B fuel (splitRound h t pn hsh) t.store.length
          (hsh % 2 ^ b.depth + 2 ^ b.depth)
      else some (splitRound h t pn hsh)

/-- `HashTable.Insert`: hash the key at the global depth, fetch that
bucket (`GetBucket` fails on an out-of-range directory index or an invalid
page), append the pair to it (`HashBucket.Insert`), and split when the
bucket overflows. -/
def insertHT (h : Int → Nat) (B : Nat) (fuel : Nat) (t : HashTable)
    (key value : Int) : Option HashTable :=
  let hsh := hasher h key t.depth
  if hsh < t.dir.length then
    let pn := t.dirGet hsh
    if pn < t.store.length then
      let b := focal t pn
      let r := b.insertEntry B key value
      let t1 : HashTable := { t with store := t.store.set pn r.1 }
      if r.2 then splitB h B fuel t1 pn hsh else some t1
    else none
  else none

/-- `NewHashTable`: global depth 2, four empty buckets at pages 0-3. -/
def newHashTable : HashTable :=
  { depth := 2, dir := [0, 1, 2, 3]
    store := [⟨2, []⟩, ⟨2, []⟩, ⟨2, []⟩, ⟨2, []⟩] }

lemma repointFrom_length (pn m nh : Nat) (i : Nat) (l : List Nat) :
    (repointFrom pn m nh i l).length = l.length := by
  induction l generalizing i with
  | nil => rfl
  | cons x xs ih => simp [repointFrom, ih]

lemma repointFrom_getD (pn m nh : Nat) (i j : Nat) (l : List Nat) :
    (repointFrom pn m nh i l).getD j 0
      = if j < l.length ∧ (i + j) % m = nh then pn else l.getD j 0 := by
  induction l generalizing i j with
  | nil => simp [repointFrom]
  | cons x xs ih =>
      cases j with
      | zero =>
          by_cases hc : i % m = nh <;> simp [repointFrom, hc]
      | succ j' =>
          show (repointFrom pn m nh (i + 1) xs).getD j' 0 = _
          rw [ih (i + 1) j']
          have harith : i + 1 + j' = i + (j' + 1) := by omega
          rw [harith]
          simp

lemma repoint_length (dir : List Nat) (m nh pn : Nat) :
    (repoint dir m nh pn).length = dir.length :=
  repointFrom_length pn m nh 0 dir

lemma repoint_getD (dir : List Nat) (m nh pn : Nat) (j : Nat) :
    (repoint dir m nh pn).getD j 0
      = if j < dir.length ∧ j % m = nh then pn else dir.getD j 0 := by
  have := repointFrom_getD pn m nh 0 j dir
  simpa using this

lemma getD_append_self (l : List Nat) (j : Nat) (hj : j < 2 * l.length) :
    (l ++ l).getD j 0 = l.getD (j % l.length) 0 := by
  rcases Nat.lt_or_ge j l.length with h | h
  · rw [List.getD_eq_getElem?_getD, List.getElem?_append, if_pos h,
      ← List.getD_eq_getElem?_getD, Nat.mod_eq_of_lt h]
  · have h3 : j - l.length < l.length := by omega
    rw [List.getD_eq_getElem?_getD, List.getElem?_append, if_neg (by omega),
      ← List.getD_eq_getElem?_getD, Nat.mod_eq_sub_mod h, Nat.mod_eq_of_lt h3]

/-- A value below `2m` with residue `r` modulo `m` is `r` or `m + r`. -/
lemma mod_double_cases (v m r : Nat) (hv : v < 2 * m)
    (hr : v % m = r) : v = r ∨ v = m + r := by
  rcases Nat.lt_or_ge v m with h | h
  · left
    rw [← hr, Nat.mod_eq_of_lt h]
  · right
    have h3 : v - m < m := by omega
    have h4 : v % m = v - m := by
      rw [Nat.mod_eq_sub_mod h, Nat.mod_eq_of_lt h3]
    omega

lemma splitRound_depth (h : Int → Nat) (t : HashTable) (pn hsh : Nat) :
    (splitRound h t pn hsh).depth
      = if (focal t pn).depth = t.depth then t.depth + 1 else t.depth := by
  unfold splitRound
  by_cases hc : (focal t pn).depth = t.depth <;> simp [hc, extendTable]

lemma splitRound_store (h : Int → Nat) (t : HashTable) (pn hsh : Nat) :
    (splitRound h t pn hsh).store
      = t.store.set pn ⟨(focal t pn).depth + 1, srKept h (focal t pn) hsh⟩
        ++ [⟨(focal t pn).depth + 1, srMoved h (focal t pn) hsh⟩] := by
  unfold splitRound
  by_cases hc : (focal t pn).depth = t.depth <;> simp [hc, extendTable]

lemma splitRound_store_length (h : Int → Nat) (t : HashTable) (pn hsh : Nat) :
    (splitRound h t pn hsh).store.length = t.store.length + 1 := by
  rw [splitRound_store]
  simp

lemma splitRound_depth_ge (h : Int → Nat) (t : HashTable) (pn hsh : Nat)
    (hld : (focal t pn).depth ≤ t.depth) :
    t.depth ≤ (splitRound h t pn hsh).depth ∧
    (focal t pn).depth + 1 ≤ (splitRound h t pn hsh).depth := by
  rw [splitRound_depth]
  by_cases hc : (focal t pn).depth = t.depth
  · rw [if_pos hc]
    omega
  · rw [if_neg hc]
    omega

lemma splitRound_dirLen (h : Int → Nat) (t : HashTable) (pn hsh : Nat)
    (hdlen : t.dir.length = 2 ^ t.depth) :
    (splitRound h t pn hsh).dir.length = 2 ^ (splitRound h t pn hsh).depth := by
  unfold splitRound
  by_cases hc : (focal t pn).depth = t.depth <;>
    simp [hc, extendTable, repoint_length, hdlen, pow_succ]
  omega

lemma splitRound_dirGet (h : Int → Nat) (t : HashTable) (pn hsh : Nat)
    (hdlen : t.dir.length = 2 ^ t.depth)
    (hld : (focal t pn).depth ≤ t.depth) (i : Nat)
    (hi : i < 2 ^ (splitRound h t pn hsh).depth) :
    (splitRound h t pn hsh).dirGet i
      = if i % 2 ^ ((focal t pn).depth + 1)
            = hsh % 2 ^ (focal t pn).depth + 2 ^ (focal t pn).depth
        then t.store.length else t.dirGet (i % 2 ^ t.depth) := by
  have hdir : (splitRound h t pn hsh).dir
      = repoint ((if (focal t pn).depth = t.depth then extendTable t else t).dir)
          (2 ^ ((focal t pn).depth + 1))
          (hsh % 2 ^ (focal t pn).depth + 2 ^ (focal t pn).depth)
          t.store.length := rfl
  rw [splitRound_depth] at hi
  by_cases hc : (focal t pn).depth = t.depth
  · rw [if_pos hc] at hi
    unfold HashTable.dirGet
    rw [hdir, if_pos hc]
    show (repoint (t.dir ++ t.dir) _ _ _).getD i 0 = _
    rw [repoint_getD]
    have hlen2 : (t.dir ++ t.dir).length = 2 ^ (t.depth + 1) := by
      simp [hdlen, pow_succ]
      omega
    have hilen : i < (t.dir ++ t.dir).length := by omega
    by_cases hm : i % 2 ^ ((focal t pn).depth + 1)
        = hsh % 2 ^ (focal t pn).depth + 2 ^ (focal t pn).depth
    · rw [if_pos ⟨hilen, hm⟩, if_pos hm]
    · rw [if_neg (fun hcon => hm hcon.2), if_neg hm]
      show (t.dir ++ t.dir).getD i 0 = _
      rw [getD_append_self t.dir i (by omega)]
      rw [hdlen]
  · rw [if_neg hc] at hi
    unfold HashTable.dirGet
    rw [hdir, if_neg hc]
    show (repoint t.dir _ _ _).getD i 0 = _
    rw [repoint_getD]
    have hilen : i < t.dir.length := by omega
    by_cases hm : i % 2 ^ ((focal t pn).depth + 1)
        = hsh % 2 ^ (focal t pn).depth + 2 ^ (focal t pn).depth
    · rw [if_pos ⟨hilen, hm⟩, if_pos hm]
    · rw [if_neg (fun hcon => hm hcon.2), if_neg hm]
      show t.dir.getD i 0 = t.dir.getD (i % 2 ^ t.depth) 0
      rw [Nat.mod_eq_of_lt (by omega)]

lemma splitRound_focal_old (h : Int → Nat) (t : HashTable) (pn hsh : Nat)
    (hpn : pn < t.store.length) :
    focal (splitRound h t pn hsh) pn
      = ⟨(focal t pn).depth + 1, srKept h (focal t pn) hsh⟩ := by
  unfold focal
  rw [splitRound_store]
  rw [List.getD_eq_getElem?_getD, List.getElem?_append, if_pos (by simpa using hpn),
    List.getElem?_set_self (by simpa using hpn)]
  rfl

lemma splitRound_focal_new (h : Int → Nat) (t : HashTable) (pn hsh : Nat) :
    focal (splitRound h t pn hsh) t.store.length
      = ⟨(focal t pn).depth + 1, srMoved h (focal t pn) hsh⟩ := by
  unfold focal
  rw [splitRound_store]
  have hlen : t.store.length
      = (t.store.set pn ⟨(focal t pn).depth + 1, srKept h (focal t pn) hsh⟩).length := by
    simp
  rw [List.getD_eq_getElem?_getD, hlen, List.getElem?_concat_length]
  rfl

lemma splitRound_focal_other (h : Int → Nat) (t : HashTable) (pn hsh : Nat)
    (q : Nat) (hq : q < t.store.length) (hne : q ≠ pn) :
    focal (splitRound h t pn hsh) q = focal t q := by
  unfold focal
  rw [splitRound_store]
  rw [List.getD_eq_getElem?_getD, List.getElem?_append, if_pos (by simpa using hq),
    List.getElem?_set_ne (by omega), ← List.getD_eq_getElem?_getD]

/-- The extendible-hash invariants of the claim (plus the two auxiliary
facts that make them inductive): the directory has exactly `2^d` slots;
every directory slot holds a valid bucket page; every bucket's local depth
`ld` satisfies `ld ≤ d`; every key of a bucket agrees, modulo `2^ld`, with
every directory index pointing at that bucket; no bucket exceeds
`BUCKETSIZE` entries; and two slots share a bucket exactly when they agree
modulo `2^ld` of that bucket. -/
@[reducible]
def Inv (h : Int → Nat) (B : Nat) (t : HashTable) : Prop :=
  t.dir.length = 2 ^ t.depth ∧
  (∀ i < 2 ^ t.depth, t.dirGet i < t.store.length) ∧
  (∀ i < 2 ^ t.depth, (t.bucketAt i).depth ≤ t.depth) ∧
  (∀ i < 2 ^ t.depth, ∀ e ∈ (t.bucketAt i).entries,
      h e.1 % 2 ^ (t.bucketAt i).depth = i % 2 ^ (t.bucketAt i).depth) ∧
  (∀ i < 2 ^ t.depth, (t.bucketAt i).entries.length ≤ B) ∧
  (∀ i < 2 ^ t.depth, ∀ j < 2 ^ t.depth,
      (t.dirGet i = t.dirGet j ↔
        i % 2 ^ (t.bucketAt i).depth = j % 2 ^ (t.bucketAt i).depth))

/-- Precondition of `Split(bucket@pn, hsh)`: the whole invariant, except
that the focal bucket may carry one extra entry (`BUCKETSIZE + 1`), its
entries all carry the residue of `hsh` at its local depth, and its slots
are exactly the directory indices with that residue. -/
structure SplitPre (h : Int → Nat) (B : Nat) (t : HashTable) (pn hsh : Nat) :
    Prop where
  dlen : t.dir.length = 2 ^ t.depth
  valid : ∀ i < 2 ^ t.depth, t.dirGet i < t.store.length
  hpn : pn < t.store.length
  bld : (focal t pn).depth ≤ t.depth
  bcnt : (focal t pn).entries.length ≤ B + 1
  bkeys : ∀ e ∈ (focal t pn).entries,
    h e.1 % 2 ^ (focal t pn).depth = hsh % 2 ^ (focal t pn).depth
  bslots : ∀ i < 2 ^ t.depth,
    (t.dirGet i = pn ↔ i % 2 ^ (focal t pn).depth = hsh % 2 ^ (focal t pn).depth)
  odep : ∀ i < 2 ^ t.depth, t.dirGet i ≠ pn → (t.bucketAt i).depth ≤ t.depth
  okeys : ∀ i < 2 ^ t.depth, t.dirGet i ≠ pn →
    ∀ e ∈ (t.bucketAt i).entries,
      h e.1 % 2 ^ (t.bucketAt i).depth = i % 2 ^ (t.bucketAt i).depth
  ocnt : ∀ i < 2 ^ t.depth, t.dirGet i ≠ pn → (t.bucketAt i).entries.length ≤ B
  share : ∀ i < 2 ^ t.depth, ∀ j < 2 ^ t.depth,
    (t.dirGet i = t.dirGet j ↔
      i % 2 ^ (t.bucketAt i).depth = j % 2 ^ (t.bucketAt i).depth)

lemma two_pow_pos' (n : Nat) : 0 < 2 ^ n := Nat.pos_pow_of_pos n (by omega)

lemma mod_pow_mod (a k l : Nat) (hkl : k ≤ l) : a % 2 ^ l % 2 ^ k = a % 2 ^ k :=
  Nat.mod_mod_of_dvd a (pow_dvd_pow 2 hkl)

lemma two_pow_succ_eq (n : Nat) : 2 ^ (n + 1) = 2 * 2 ^ n := by
  rw [pow_succ]
  omega

lemma bucketAt_eq_focal (t : HashTable) (i : Nat) :
    t.bucketAt i = focal t (t.dirGet i) := rfl

lemma mem_srKept (h : Int → Nat) (b : HashBucket) (hsh : Nat)
    (e : Int × Int) (he : e ∈ srKept h b hsh) :
    e ∈ b.entries ∧
      ¬(h e.1 % 2 ^ (b.depth + 1) = hsh % 2 ^ b.depth + 2 ^ b.depth) := by
  have := List.mem_filter.mp he
  simpa [hasher] using this

lemma mem_srMoved (h : Int → Nat) (b : HashBucket) (hsh : Nat)
    (e : Int × Int) (he : e ∈ srMoved h b hsh) :
    e ∈ b.entries ∧
      h e.1 % 2 ^ (b.depth + 1) = hsh % 2 ^ b.depth + 2 ^ b.depth := by
  have := List.mem_filter.mp he
  simpa [hasher] using this

lemma srKept_length_le (h : Int → Nat) (b : HashBucket) (hsh : Nat) :
    (srKept h b hsh).length ≤ b.entries.length :=
  List.length_filter_le _ _

lemma srMoved_length_le (h : Int → Nat) (b : HashBucket) (hsh : Nat) :
    (srMoved h b hsh).length ≤ b.entries.length :=
  List.length_filter_le _ _

lemma length_filter_not_add {α : Type} (p : α → Prop) [DecidablePred p]
    (l : List α) :
    (l.filter (fun a => ¬ p a)).length + (l.filter (fun a => p a)).length
      = l.length := by
  induction l with
  | nil => rfl
  | cons x xs ih =>
      by_cases hc : p x <;>
        simp [List.filter_cons, hc, decide_not] at ih ⊢ <;> omega

/-- The redistribution partitions the bucket's entries. -/
lemma srKept_srMoved_length (h : Int → Nat) (b : HashBucket) (hsh : Nat) :
    (srKept h b hsh).length + (srMoved h b hsh).length = b.entries.length := by
  unfold srKept srMoved
  exact length_filter_not_add _ _

/-- A kept entry hashes to `oldHash` at the new local depth. -/
lemma srKept_residue (h : Int → Nat) (b : HashBucket) (hsh : Nat)
    (hres : ∀ e ∈ b.entries, h e.1 % 2 ^ b.depth = hsh % 2 ^ b.depth)
    (e : Int × Int) (he : e ∈ srKept h b hsh) :
    h e.1 % 2 ^ (b.depth + 1) = hsh % 2 ^ b.depth := by
  obtain ⟨hmem, hne⟩ := mem_srKept h b hsh e he
  have h1 : h e.1 % 2 ^ (b.depth + 1) % 2 ^ b.depth = h e.1 % 2 ^ b.depth :=
    mod_pow_mod _ _ _ (by omega)
  have h2 := hres e hmem
  have h3 : h e.1 % 2 ^ (b.depth + 1) < 2 * 2 ^ b.depth := by
    have := Nat.mod_lt (h e.1) (two_pow_pos' (b.depth + 1))
    rw [two_pow_succ_eq] at this
    omega
  rcases mod_double_cases (h e.1 % 2 ^ (b.depth + 1)) (2 ^ b.depth)
      (hsh % 2 ^ b.depth) h3 (by rw [h1, h2]) with hc | hc
  · exact hc
  · exact absurd (by omega) hne

/-- Class A slots: indices congruent to `newHash` at the new local depth
point at the new bucket, which holds the moved entries. -/
lemma classA (h : Int → Nat) (B : Nat) (t : HashTable) (pn hsh : Nat)
    (pre : SplitPre h B t pn hsh) (i : Nat)
    (hi : i < 2 ^ (splitRound h t pn hsh).depth)
    (hA : i % 2 ^ ((focal t pn).depth + 1)
      = hsh % 2 ^ (focal t pn).depth + 2 ^ (focal t pn).depth) :
    (splitRound h t pn hsh).dirGet i = t.store.length ∧
    (splitRound h t pn hsh).bucketAt i
      = ⟨(focal t pn).depth + 1, srMoved h (focal t pn) hsh⟩ := by
  have h1 := splitRound_dirGet h t pn hsh pre.dlen pre.bld i hi
  rw [if_pos hA] at h1
  refine ⟨h1, ?_⟩
  rw [bucketAt_eq_focal, h1, splitRound_focal_new]

/-- Class B slots: indices with the old residue but not congruent to
`newHash` keep pointing at the split bucket, which holds the kept entries;
their residue at the new local depth is `oldHash`. -/
lemma classB (h : Int → Nat) (B : Nat) (t : HashTable) (pn hsh : Nat)
    (pre : SplitPre h B t pn hsh) (i : Nat)
    (hi : i < 2 ^ (splitRound h t pn hsh).depth)
    (hne : i % 2 ^ ((focal t pn).depth + 1)
      ≠ hsh % 2 ^ (focal t pn).depth + 2 ^ (focal t pn).depth)
    (hoh : i % 2 ^ (focal t pn).depth = hsh % 2 ^ (focal t pn).depth) :
    (splitRound h t pn hsh).dirGet i = pn ∧
    (splitRound h t pn hsh).bucketAt i
      = ⟨(focal t pn).depth + 1, srKept h (focal t pn) hsh⟩ ∧
    i % 2 ^ ((focal t pn).depth + 1) = hsh % 2 ^ (focal t pn).depth := by
  have hv : i % 2 ^ ((focal t pn).depth + 1) < 2 * 2 ^ (focal t pn).depth := by
    have := Nat.mod_lt i (two_pow_pos' ((focal t pn).depth + 1))
    rw [two_pow_succ_eq] at this
    omega
  have hvm : i % 2 ^ ((focal t pn).depth + 1) % 2 ^ (focal t pn).depth
      = hsh % 2 ^ (focal t pn).depth := by
    rw [mod_pow_mod _ _ _ (by omega), hoh]
  have hres : i % 2 ^ ((focal t pn).depth + 1) = hsh % 2 ^ (focal t pn).depth := by
    rcases mod_double_cases _ _ _ hv hvm with hc | hc
    · exact hc
    · exact absurd (by omega) hne
  have h1 := splitRound_dirGet h t pn hsh pre.dlen pre.bld i hi
  rw [if_neg hne] at h1
  have himod : i % 2 ^ t.depth < 2 ^ t.depth := Nat.mod_lt i (two_pow_pos' _)
  have h2 : t.dirGet (i % 2 ^ t.depth) = pn := by
    rw [pre.bslots (i % 2 ^ t.depth) himod]
    rw [mod_pow_mod _ _ _ pre.bld, hoh]
  rw [h2] at h1
  refine ⟨h1, ?_, hres⟩
  rw [bucketAt_eq_focal, h1, splitRound_focal_old h t pn hsh pre.hpn]

/-- Class C slots: indices with a different residue at the old local depth
are untouched: they point at their old bucket, which is neither the split
bucket nor the new one. -/
lemma classC (h : Int → Nat) (B : Nat) (t : HashTable) (pn hsh : Nat)
    (pre : SplitPre h B t pn hsh) (i : Nat)
    (hi : i < 2 ^ (splitRound h t pn hsh).depth)
    (hoh : i % 2 ^ (focal t pn).depth ≠ hsh % 2 ^ (focal t pn).depth) :
    (splitRound h t pn hsh).dirGet i = t.dirGet (i % 2 ^ t.depth) ∧
    t.dirGet (i % 2 ^ t.depth) ≠ pn ∧
    t.dirGet (i % 2 ^ t.depth) ≠ t.store.length ∧
    (splitRound h t pn hsh).bucketAt i = t.bucketAt (i % 2 ^ t.depth) ∧
    i % 2 ^ ((focal t pn).depth + 1)
      ≠ hsh % 2 ^ (focal t pn).depth + 2 ^ (focal t pn).depth := by
  have hm1 : i % 2 ^ ((focal t pn).depth + 1)
      ≠ hsh % 2 ^ (focal t pn).depth + 2 ^ (focal t pn).depth := by
    intro hcon
    apply hoh
    have h1 : i % 2 ^ ((focal t pn).depth + 1) % 2 ^ (focal t pn).depth
        = i % 2 ^ (focal t pn).depth := mod_pow_mod _ _ _ (by omega)
    rw [hcon] at h1
    rw [← h1, Nat.add_mod_right]
    simp [Nat.mod_mod_of_dvd]
  have himod : i % 2 ^ t.depth < 2 ^ t.depth := Nat.mod_lt i (two_pow_pos' _)
  have h1 := splitRound_dirGet h t pn hsh pre.dlen pre.bld i hi
  rw [if_neg hm1] at h1
  have hnp : t.dirGet (i % 2 ^ t.depth) ≠ pn := by
    intro hcon
    apply hoh
    have := (pre.bslots (i % 2 ^ t.depth) himod).mp hcon
    rw [mod_pow_mod _ _ _ pre.bld] at this
    exact this
  have hlt := pre.valid (i % 2 ^ t.depth) himod
  refine ⟨h1, hnp, by omega, ?_, hm1⟩
  rw [bucketAt_eq_focal, h1,
    splitRound_focal_other h t pn hsh _ hlt hnp, bucketAt_eq_focal]

lemma splitRound_valid (h : Int → Nat) (B : Nat) (t : HashTable) (pn hsh : Nat)
    (pre : SplitPre h B t pn hsh) :
    ∀ i < 2 ^ (splitRound h t pn hsh).depth,
      (splitRound h t pn hsh).dirGet i < (splitRound h t pn hsh).store.length := by
  intro i hi
  rw [splitRound_store_length]
  by_cases hA : i % 2 ^ ((focal t pn).depth + 1)
      = hsh % 2 ^ (focal t pn).depth + 2 ^ (focal t pn).depth
  · rw [(classA h B t pn hsh pre i hi hA).1]
    omega
  · by_cases hoh : i % 2 ^ (focal t pn).depth = hsh % 2 ^ (focal t pn).depth
    · rw [(classB h B t pn hsh pre i hi hA hoh).1]
      have := pre.hpn
      omega
    · obtain ⟨h1, _, _, _, _⟩ := classC h B t pn hsh pre i hi hoh
      rw [h1]
      have := pre.valid (i % 2 ^ t.depth) (Nat.mod_lt i (two_pow_pos' _))
      omega

lemma splitRound_share (h : Int → Nat) (B : Nat) (t : HashTable) (pn hsh : Nat)
    (pre : SplitPre h B t pn hsh) :
    ∀ i < 2 ^ (splitRound h t pn hsh).depth,
      ∀ j < 2 ^ (splitRound h t pn hsh).depth,
      ((splitRound h t pn hsh).dirGet i = (splitRound h t pn hsh).dirGet j ↔
        i % 2 ^ ((splitRound h t pn hsh).bucketAt i).depth
          = j % 2 ^ ((splitRound h t pn hsh).bucketAt i).depth) := by
  intro i hi j hj
  have hohlt : hsh % 2 ^ (focal t pn).depth < 2 ^ (focal t pn).depth :=
    Nat.mod_lt hsh (two_pow_pos' _)
  have hmpos : 0 < 2 ^ (focal t pn).depth := two_pow_pos' _
  have hnhne : hsh % 2 ^ (focal t pn).depth
      ≠ hsh % 2 ^ (focal t pn).depth + 2 ^ (focal t pn).depth := by omega
  by_cases hAi : i % 2 ^ ((focal t pn).depth + 1)
      = hsh % 2 ^ (focal t pn).depth + 2 ^ (focal t pn).depth
  · obtain ⟨hdi, hbi⟩ := classA h B t pn hsh pre i hi hAi
    rw [hdi, hbi]
    constructor
    · intro hq
      by_cases hAj : j % 2 ^ ((focal t pn).depth + 1)
          = hsh % 2 ^ (focal t pn).depth + 2 ^ (focal t pn).depth
      · rw [hAi, hAj]
      · by_cases hohj : j % 2 ^ (focal t pn).depth = hsh % 2 ^ (focal t pn).depth
        · rw [(classB h B t pn hsh pre j hj hAj hohj).1] at hq
          exact absurd hq.symm (by have := pre.hpn; omega)
        · obtain ⟨hdj, _, hnl, _, _⟩ := classC h B t pn hsh pre j hj hohj
          rw [hdj] at hq
          exact absurd hq.symm hnl
    · intro hres
      have hAj : j % 2 ^ ((focal t pn).depth + 1)
          = hsh % 2 ^ (focal t pn).depth + 2 ^ (focal t pn).depth := by
        rw [← hres, hAi]
      rw [(classA h B t pn hsh pre j hj hAj).1]
  · by_cases hohi : i % 2 ^ (focal t pn).depth = hsh % 2 ^ (focal t pn).depth
    · obtain ⟨hdi, hbi, hresi⟩ := classB h B t pn hsh pre i hi hAi hohi
      rw [hdi, hbi]
      constructor
      · intro hq
        by_cases hAj : j % 2 ^ ((focal t pn).depth + 1)
            = hsh % 2 ^ (focal t pn).depth + 2 ^ (focal t pn).depth
        · rw [(classA h B t pn hsh pre j hj hAj).1] at hq
          exact absurd hq (by have := pre.hpn; omega)
        · by_cases hohj : j % 2 ^ (focal t pn).depth = hsh % 2 ^ (focal t pn).depth
          · obtain ⟨_, _, hresj⟩ := classB h B t pn hsh pre j hj hAj hohj
            rw [hresi, hresj]
          · obtain ⟨hdj, hnp, _, _, _⟩ := classC h B t pn hsh pre j hj hohj
            rw [hdj] at hq
            exact absurd hq.symm hnp
      · intro hres
        have hresj : j % 2 ^ ((focal t pn).depth + 1)
            = hsh % 2 ^ (focal t pn).depth := by rw [← hres, hresi]
        have hAj : j % 2 ^ ((focal t pn).depth + 1)
            ≠ hsh % 2 ^ (focal t pn).depth + 2 ^ (focal t pn).depth := by
          rw [hresj]
          omega
        have hohj : j % 2 ^ (focal t pn).depth = hsh % 2 ^ (focal t pn).depth := by
          have := mod_pow_mod j ((focal t pn).depth) ((focal t pn).depth + 1)
            (by omega)
          rw [← this, hresj, Nat.mod_eq_of_lt hohlt]
        rw [(classB h B t pn hsh pre j hj hAj hohj).1]
    · obtain ⟨hdi, hnpi, hnli, hbi, _⟩ := classC h B t pn hsh pre i hi hohi
      have himod : i % 2 ^ t.depth < 2 ^ t.depth := Nat.mod_lt i (two_pow_pos' _)
      have hldq : (t.bucketAt (i % 2 ^ t.depth)).depth ≤ t.depth :=
        pre.odep _ himod hnpi
      rw [hdi, hbi]
      constructor
      · intro hq
        by_cases hAj : j % 2 ^ ((focal t pn).depth + 1)
            = hsh % 2 ^ (focal t pn).depth + 2 ^ (focal t pn).depth
        · rw [(classA h B t pn hsh pre j hj hAj).1] at hq
          exact absurd hq hnli
        · by_cases hohj : j % 2 ^ (focal t pn).depth = hsh % 2 ^ (focal t pn).depth
          · rw [(classB h B t pn hsh pre j hj hAj hohj).1] at hq
            exact absurd hq hnpi
          · obtain ⟨hdj, _, _, _, _⟩ := classC h B t pn hsh pre j hj hohj
            rw [hdj] at hq
            have hjmod : j % 2 ^ t.depth < 2 ^ t.depth :=
              Nat.mod_lt j (two_pow_pos' _)
            have := (pre.share _ himod _ hjmod).mp hq
            rw [mod_pow_mod i _ _ hldq, mod_pow_mod j _ _ hldq] at this
            exact this
      · intro hres
        have hjmod : j % 2 ^ t.depth < 2 ^ t.depth := Nat.mod_lt j (two_pow_pos' _)
        have hshare : (i % 2 ^ t.depth) % 2 ^ (t.bucketAt (i % 2 ^ t.depth)).depth
            = (j % 2 ^ t.depth) % 2 ^ (t.bucketAt (i % 2 ^ t.depth)).depth := by
          rw [mod_pow_mod i _ _ hldq, mod_pow_mod j _ _ hldq]
          exact hres
        have hqq := (pre.share _ himod _ hjmod).mpr hshare
        have hohj : j % 2 ^ (focal t pn).depth ≠ hsh % 2 ^ (focal t pn).depth := by
          intro hcon
          apply hnpi
          rw [hqq]
          rw [pre.bslots _ hjmod]
          rw [mod_pow_mod j _ _ pre.bld, hcon]
        obtain ⟨hdj, _, _, _, _⟩ := classC h B t pn hsh pre j hj hohj
        rw [hdj, ← hqq]

/-- A split round whose two halves both fit re-establishes the full
invariant. -/
lemma splitRound_inv (h : Int → Nat) (B : Nat) (t : HashTable) (pn hsh : Nat)
    (pre : SplitPre h B t pn hsh)
    (hkeptB : (srKept h (focal t pn) hsh).length ≤ B)
    (hmovedB : (srMoved h (focal t pn) hsh).length ≤ B) :
    Inv h B (splitRound h t pn hsh) := by
  obtain ⟨hge_d, hge_ld⟩ := splitRound_depth_ge h t pn hsh pre.bld
  refine ⟨splitRound_dirLen h t pn hsh pre.dlen,
    splitRound_valid h B t pn hsh pre, ?_, ?_, ?_,
    splitRound_share h B t pn hsh pre⟩
  · intro i hi
    by_cases hA : i % 2 ^ ((focal t pn).depth + 1)
        = hsh % 2 ^ (focal t pn).depth + 2 ^ (focal t pn).depth
    · rw [(classA h B t pn hsh pre i hi hA).2]
      exact hge_ld
    · by_cases hoh : i % 2 ^ (focal t pn).depth = hsh % 2 ^ (focal t pn).depth
      · rw [(classB h B t pn hsh pre i hi hA hoh).2.1]
        exact hge_ld
      · obtain ⟨_, hnp, _, hb, _⟩ := classC h B t pn hsh pre i hi hoh
        rw [hb]
        have himod : i % 2 ^ t.depth < 2 ^ t.depth := Nat.mod_lt i (two_pow_pos' _)
        exact le_trans (pre.odep _ himod hnp) hge_d
  · intro i hi e he
    by_cases hA : i % 2 ^ ((focal t pn).depth + 1)
        = hsh % 2 ^ (focal t pn).depth + 2 ^ (focal t pn).depth
    · obtain ⟨_, hb⟩ := classA h B t pn hsh pre i hi hA
      rw [hb] at he ⊢
      show h e.1 % 2 ^ ((focal t pn).depth + 1) = i % 2 ^ ((focal t pn).depth + 1)
      rw [(mem_srMoved h (focal t pn) hsh e he).2, hA]
    · by_cases hoh : i % 2 ^ (focal t pn).depth = hsh % 2 ^ (focal t pn).depth
      · obtain ⟨_, hb, hres⟩ := classB h B t pn hsh pre i hi hA hoh
        rw [hb] at he ⊢
        show h e.1 % 2 ^ ((focal t pn).depth + 1) = i % 2 ^ ((focal t pn).depth + 1)
        rw [srKept_residue h (focal t pn) hsh pre.bkeys e he, hres]
      · obtain ⟨_, hnp, _, hb, _⟩ := classC h B t pn hsh pre i hi hoh
        rw [hb] at he ⊢
        have himod : i % 2 ^ t.depth < 2 ^ t.depth := Nat.mod_lt i (two_pow_pos' _)
        have hldq : (t.bucketAt (i % 2 ^ t.depth)).depth ≤ t.depth :=
          pre.odep _ himod hnp
        rw [← mod_pow_mod i _ _ hldq]
        exact pre.okeys _ himod hnp e he
  · intro i hi
    by_cases hA : i % 2 ^ ((focal t pn).depth + 1)
        = hsh % 2 ^ (focal t pn).depth + 2 ^ (focal t pn).depth
    · rw [(classA h B t pn hsh pre i hi hA).2]
      exact hmovedB
    · by_cases hoh : i % 2 ^ (focal t pn).depth = hsh % 2 ^ (focal t pn).depth
      · rw [(classB h B t pn hsh pre i hi hA hoh).2.1]
        exact hkeptB
      · obtain ⟨_, hnp, _, hb, _⟩ := classC h B t pn hsh pre i hi hoh
        rw [hb]
        exact pre.ocnt _ (Nat.mod_lt i (two_pow_pos' _)) hnp

/-- After a round, if the moved half fits, the kept half satisfies the
split precondition again at the same page with hash `oldHash`. -/
lemma splitRound_pre_old (h : Int → Nat) (B : Nat) (t : HashTable)
    (pn hsh : Nat) (pre : SplitPre h B t pn hsh)
    (hmovedB : (srMoved h (focal t pn) hsh).length ≤ B) :
    SplitPre h B (splitRound h t pn hsh) pn
      (hsh % 2 ^ (focal t pn).depth) := by
  obtain ⟨hge_d, hge_ld⟩ := splitRound_depth_ge h t pn hsh pre.bld
  have hfocal := splitRound_focal_old h t pn hsh pre.hpn
  have hohlt : hsh % 2 ^ (focal t pn).depth < 2 ^ (focal t pn).depth :=
    Nat.mod_lt hsh (two_pow_pos' _)
  have hohm1 : hsh % 2 ^ (focal t pn).depth % 2 ^ ((focal t pn).depth + 1)
      = hsh % 2 ^ (focal t pn).depth := by
    apply Nat.mod_eq_of_lt
    calc hsh % 2 ^ (focal t pn).depth < 2 ^ (focal t pn).depth := hohlt
    _ ≤ 2 ^ ((focal t pn).depth + 1) := Nat.pow_le_pow_right (by omega) (by omega)
  refine ⟨splitRound_dirLen h t pn hsh pre.dlen,
    splitRound_valid h B t pn hsh pre, ?_, ?_, ?_, ?_, ?_, ?_, ?_, ?_,
    splitRound_share h B t pn hsh pre⟩
  · rw [splitRound_store_length]
    have := pre.hpn
    omega
  · rw [hfocal]
    exact hge_ld
  · rw [hfocal]
    exact le_trans (srKept_length_le h (focal t pn) hsh) pre.bcnt
  · rw [hfocal]
    intro e he
    show h e.1 % 2 ^ ((focal t pn).depth + 1)
      = hsh % 2 ^ (focal t pn).depth % 2 ^ ((focal t pn).depth + 1)
    rw [srKept_residue h (focal t pn) hsh pre.bkeys e he, hohm1]
  · intro i hi
    rw [hfocal]
    show (splitRound h t pn hsh).dirGet i = pn ↔
      i % 2 ^ ((focal t pn).depth + 1)
        = hsh % 2 ^ (focal t pn).depth % 2 ^ ((focal t pn).depth + 1)
    rw [hohm1]
    constructor
    · intro hq
      by_cases hA : i % 2 ^ ((focal t pn).depth + 1)
          = hsh % 2 ^ (focal t pn).depth + 2 ^ (focal t pn).depth
      · rw [(classA h B t pn hsh pre i hi hA).1] at hq
        exact absurd hq (by have := pre.hpn; omega)
      · by_cases hoh : i % 2 ^ (focal t pn).depth = hsh % 2 ^ (focal t pn).depth
        · exact (classB h B t pn hsh pre i hi hA hoh).2.2
        · obtain ⟨hd, hnp, _, _, _⟩ := classC h B t pn hsh pre i hi hoh
          rw [hd] at hq
          exact absurd hq hnp
    · intro hres
      have hA : i % 2 ^ ((focal t pn).depth + 1)
          ≠ hsh % 2 ^ (focal t pn).depth + 2 ^ (focal t pn).depth := by
        rw [hres]
        have := two_pow_pos' (focal t pn).depth
        omega
      have hoh : i % 2 ^ (focal t pn).depth = hsh % 2 ^ (focal t pn).depth := by
        rw [← mod_pow_mod i ((focal t pn).depth) ((focal t pn).depth + 1) (by omega),
          hres, Nat.mod_eq_of_lt hohlt]
      exact (classB h B t pn hsh pre i hi hA hoh).1
  · intro i hi hne
    by_cases hA : i % 2 ^ ((focal t pn).depth + 1)
        = hsh % 2 ^ (focal t pn).depth + 2 ^ (focal t pn).depth
    · rw [(classA h B t pn hsh pre i hi hA).2]
      exact hge_ld
    · by_cases hoh : i % 2 ^ (focal t pn).depth = hsh % 2 ^ (focal t pn).depth
      · exact absurd (classB h B t pn hsh pre i hi hA hoh).1 hne
      · obtain ⟨_, hnp, _, hb, _⟩ := classC h B t pn hsh pre i hi hoh
        rw [hb]
        exact le_trans (pre.odep _ (Nat.mod_lt i (two_pow_pos' _)) hnp) hge_d
  · intro i hi hne e he
    by_cases hA : i % 2 ^ ((focal t pn).depth + 1)
        = hsh % 2 ^ (focal t pn).depth + 2 ^ (focal t pn).depth
    · obtain ⟨_, hb⟩ := classA h B t pn hsh pre i hi hA
      rw [hb] at he ⊢
      show h e.1 % 2 ^ ((focal t pn).depth + 1) = i % 2 ^ ((focal t pn).depth + 1)
      rw [(mem_srMoved h (focal t pn) hsh e he).2, hA]
    · by_cases hoh : i % 2 ^ (focal t pn).depth = hsh % 2 ^ (focal t pn).depth
      · exact absurd (classB h B t pn hsh pre i hi hA hoh).1 hne
      · obtain ⟨_, hnp, _, hb, _⟩ := classC h B t pn hsh pre i hi hoh
        rw [hb] at he ⊢
        have himod : i % 2 ^ t.depth < 2 ^ t.depth := Nat.mod_lt i (two_pow_pos' _)
        have hldq : (t.bucketAt (i % 2 ^ t.depth)).depth ≤ t.depth :=
          pre.odep _ himod hnp
        rw [← mod_pow_mod i _ _ hldq]
        exact pre.okeys _ himod hnp e he
  · intro i hi hne
    by_cases hA : i % 2 ^ ((focal t pn).depth + 1)
        = hsh % 2 ^ (focal t pn).depth + 2 ^ (focal t pn).depth
    · rw [(classA h B t pn hsh pre i hi hA).2]
      exact hmovedB
    · by_cases hoh : i % 2 ^ (focal t pn).depth = hsh % 2 ^ (focal t pn).depth
      · exact absurd (classB h B t pn hsh pre i hi hA hoh).1 hne
      · obtain ⟨_, hnp, _, hb, _⟩ := classC h B t pn hsh pre i hi hoh
        rw [hb]
        exact pre.ocnt _ (Nat.mod_lt i (two_pow_pos' _)) hnp

/-- After a round, if the kept half fits, the moved half satisfies the
split precondition at the new page with hash `newHash`. -/
lemma splitRound_pre_new (h : Int → Nat) (B : Nat) (t : HashTable)
    (pn hsh : Nat) (pre : SplitPre h B t pn hsh)
    (hkeptB : (srKept h (focal t pn) hsh).length ≤ B) :
    SplitPre h B (splitRound h t pn hsh) t.store.length
      (hsh % 2 ^ (focal t pn).depth + 2 ^ (focal t pn).depth) := by
  obtain ⟨hge_d, hge_ld⟩ := splitRound_depth_ge h t pn hsh pre.bld
  have hfocal := splitRound_focal_new h t pn hsh
  have hohlt : hsh % 2 ^ (focal t pn).depth < 2 ^ (focal t pn).depth :=
    Nat.mod_lt hsh (two_pow_pos' _)
  have hnhm1 : (hsh % 2 ^ (focal t pn).depth + 2 ^ (focal t pn).depth)
      % 2 ^ ((focal t pn).depth + 1)
      = hsh % 2 ^ (focal t pn).depth + 2 ^ (focal t pn).depth := by
    apply Nat.mod_eq_of_lt
    rw [two_pow_succ_eq]
    omega
  refine ⟨splitRound_dirLen h t pn hsh pre.dlen,
    splitRound_valid h B t pn hsh pre, ?_, ?_, ?_, ?_, ?_, ?_, ?_, ?_,
    splitRound_share h B t pn hsh pre⟩
  · rw [splitRound_store_length]
    omega
  · rw [hfocal]
    exact hge_ld
  · rw [hfocal]
    exact le_trans (srMoved_length_le h (focal t pn) hsh) pre.bcnt
  · rw [hfocal]
    intro e he
    show h e.1 % 2 ^ ((focal t pn).depth + 1) = _
    rw [(mem_srMoved h (focal t pn) hsh e he).2, hnhm1]
  · intro i hi
    rw [hfocal]
    show (splitRound h t pn hsh).dirGet i = t.store.length ↔
      i % 2 ^ ((focal t pn).depth + 1) = _
    rw [hnhm1]
    constructor
    · intro hq
      by_cases hA : i % 2 ^ ((focal t pn).depth + 1)
          = hsh % 2 ^ (focal t pn).depth + 2 ^ (focal t pn).depth
      · exact hA
      · by_cases hoh : i % 2 ^ (focal t pn).depth = hsh % 2 ^ (focal t pn).depth
        · rw [(classB h B t pn hsh pre i hi hA hoh).1] at hq
          exact absurd hq (by have := pre.hpn; omega)
        · obtain ⟨hd, _, hnl, _, _⟩ := classC h B t pn hsh pre i hi hoh
          rw [hd] at hq
          exact absurd hq hnl
    · intro hres
      exact (classA h B t pn hsh pre i hi hres).1
  · intro i hi hne
    by_cases hA : i % 2 ^ ((focal t pn).depth + 1)
        = hsh % 2 ^ (focal t pn).depth + 2 ^ (focal t pn).depth
    · exact absurd (classA h B t pn hsh pre i hi hA).1 hne
    · by_cases hoh : i % 2 ^ (focal t pn).depth = hsh % 2 ^ (focal t pn).depth
      · rw [(classB h B t pn hsh pre i hi hA hoh).2.1]
        exact hge_ld
      · obtain ⟨_, hnp, _, hb, _⟩ := classC h B t pn hsh pre i hi hoh
        rw [hb]
        exact le_trans (pre.odep _ (Nat.mod_lt i (two_pow_pos' _)) hnp) hge_d
  · intro i hi hne e he
    by_cases hA : i % 2 ^ ((focal t pn).depth + 1)
        = hsh % 2 ^ (focal t pn).depth + 2 ^ (focal t pn).depth
    · exact absurd (classA h B t pn hsh pre i hi hA).1 hne
    · by_cases hoh : i % 2 ^ (focal t pn).depth = hsh % 2 ^ (focal t pn).depth
      · obtain ⟨_, hb, hres⟩ := classB h B t pn hsh pre i hi hA hoh
        rw [hb] at he ⊢
        show h e.1 % 2 ^ ((focal t pn).depth + 1) = i % 2 ^ ((focal t pn).depth + 1)
        rw [srKept_residue h (focal t pn) hsh pre.bkeys e he, hres]
      · obtain ⟨_, hnp, _, hb, _⟩ := classC h B t pn hsh pre i hi hoh
        rw [hb] at he ⊢
        have himod : i % 2 ^ t.depth < 2 ^ t.depth := Nat.mod_lt i (two_pow_pos' _)
        have hldq : (t.bucketAt (i % 2 ^ t.depth)).depth ≤ t.depth :=
          pre.odep _ himod hnp
        rw [← mod_pow_mod i _ _ hldq]
        exact pre.okeys _ himod hnp e he
  · intro i hi hne
    by_cases hA : i % 2 ^ ((focal t pn).depth + 1)
        = hsh % 2 ^ (focal t pn).depth + 2 ^ (focal t pn).depth
    · exact absurd (classA h B t pn hsh pre i hi hA).1 hne
    · by_cases hoh : i % 2 ^ (focal t pn).depth = hsh % 2 ^ (focal t pn).depth
      · rw [(classB h B t pn hsh pre i hi hA hoh).2.1]
        exact hkeptB
      · obtain ⟨_, hnp, _, hb, _⟩ := classC h B t pn hsh pre i hi hoh
        rw [hb]
        exact pre.ocnt _ (Nat.mod_lt i (two_pow_pos' _)) hnp

lemma getD_set_self (s : List HashBucket) (pn : Nat) (b' d : HashBucket)
    (hpn : pn < s.length) : (s.set pn b').getD pn d = b' := by
  rw [List.getD_eq_getElem?_getD, List.getElem?_set_self hpn]
  rfl

lemma getD_set_ne (s : List HashBucket) (pn q : Nat) (b' d : HashBucket)
    (hne : q ≠ pn) : (s.set pn b').getD q d = s.getD q d := by
  rw [List.getD_eq_getElem?_getD, List.getElem?_set_ne (by omega),
    ← List.getD_eq_getElem?_getD]

lemma bucketAt_setStore (t : HashTable) (pn : Nat) (b' : HashBucket) (i : Nat)
    (hpn : pn < t.store.length) :
    ({ t with store := t.store.set pn b' } : HashTable).bucketAt i
      = if t.dirGet i = pn then b' else t.bucketAt i := by
  show (t.store.set pn b').getD (t.dirGet i) ⟨0, []⟩
    = if t.dirGet i = pn then b' else t.bucketAt i
  by_cases hip : t.dirGet i = pn
  · rw [if_pos hip, hip, getD_set_self _ _ _ _ hpn]
  · rw [if_neg hip, getD_set_ne _ _ _ _ _ hip]
    rfl

/-- `Split` preserves the invariant: any successful fueled run from a state
satisfying the split precondition ends in a state satisfying the full
invariant. -/
lemma splitB_preserves (h : Int → Nat) (B : Nat) (hB1 : 1 ≤ B) (fuel : Nat) :
    ∀ (t : HashTable) (pn hsh : Nat) (t' : HashTable),
      SplitPre h B t pn hsh → splitB h B fuel t pn hsh = some t' →
      Inv h B t' := by
  induction fuel with
  | zero =>
      intro t pn hsh t' pre heq
      exact absurd heq (by simp [splitB])
  | succ fuel ih =>
      intro t pn hsh t' pre heq
      rw [splitB] at heq
      have hpart := srKept_srMoved_length h (focal t pn) hsh
      have hcnt := pre.bcnt
      by_cases hc1 : B ≤ (srKept h (focal t pn) hsh).length
      · rw [if_pos hc1] at heq
        exact ih _ _ _ t'
          (splitRound_pre_old h B t pn hsh pre (by omega)) heq
      · rw [if_neg hc1] at heq
        by_cases hc2 : B ≤ (srMoved h (focal t pn) hsh).length
        · rw [if_pos hc2] at heq
          exact ih _ _ _ t'
            (splitRound_pre_new h B t pn hsh pre (by omega)) heq
        · rw [if_neg hc2] at heq
          have ht' : splitRound h t pn hsh = t' := Option.some.inj heq
          rw [← ht']
          exact splitRound_inv h B t pn hsh pre (by omega) (by omega)

/-- The table after `bucket.Insert` wrote the appended bucket back to its
page (the pin/write through the pager). -/
def appendStep (t : HashTable) (pn : Nat) (b1 : HashBucket) : HashTable :=
  { t with store := t.store.set pn b1 }

lemma appendStep_dirGet (t : HashTable) (pn : Nat) (b1 : HashBucket)
    (i : Nat) : (appendStep t pn b1).dirGet i = t.dirGet i := rfl

lemma appendStep_bucketAt (t : HashTable) (pn : Nat) (b1 : HashBucket)
    (i : Nat) (hpn : pn < t.store.length) :
    (appendStep t pn b1).bucketAt i
      = if t.dirGet i = pn then b1 else t.bucketAt i := by
  show (t.store.set pn b1).getD (t.dirGet i) ⟨0, []⟩ = _
  by_cases hip : t.dirGet i = pn
  · rw [if_pos hip, hip, getD_set_self _ _ _ _ hpn]
  · rw [if_neg hip, getD_set_ne _ _ _ _ _ hip]
    rfl

lemma appendStep_focal_self (t : HashTable) (pn : Nat) (b1 : HashBucket)
    (hpn : pn < t.store.length) : focal (appendStep t pn b1) pn = b1 := by
  show (t.store.set pn b1).getD pn ⟨0, []⟩ = b1
  exact getD_set_self _ _ _ _ hpn

/-- C6: For every extendible hash table satisfying the hash invariants and
every terminating `Insert` (including all the bucket splits and directory
doublings it triggers), the invariants still hold afterwards: the directory
has exactly `2^d` slots, every bucket's local depth is at most `d`, every
key of a bucket agrees in its low `ld` bits with the directory indexes
pointing at that bucket, and no bucket holds more than `BUCKETSIZE`
entries (`Inv` states exactly these, plus the slot-validity and
bucket-sharing facts that make them inductive). -/
theorem hashTable_insert_preserves_invariants (h : Int → Nat) (B : Nat)
    (hB1 : 1 ≤ B) (fuel : Nat) (t t' : HashTable) (key value : Int)
    (hInv : Inv h B t)
    (hrun : insertHT h B fuel t key value = some t') : Inv h B t' := by
  obtain ⟨dlen, valid, depthOk, keysOk, cntOk, share⟩ := hInv
  have hshlt : hasher h key t.depth < 2 ^ t.depth :=
    Nat.mod_lt _ (two_pow_pos' _)
  have hdirlen : hasher h key t.depth < t.dir.length := by omega
  have hpn : t.dirGet (hasher h key t.depth) < t.store.length := valid _ hshlt
  set hsh := hasher h key t.depth with hhsh
  set pn := t.dirGet hsh with hpndef
  set b := focal t pn with hbdef
  set b1 := (b.insertEntry B key value).1 with hb1def
  set t1 := appendStep t pn b1 with ht1def
  have hrun2 : (if (b.insertEntry B key value).2 = true
      then splitB h B fuel t1 pn hsh else some t1) = some t' := by
    rw [insertHT] at hrun
    rw [if_pos hdirlen, if_pos hpn] at hrun
    exact hrun
  have hb1e : b1.entries = b.entries ++ [(key, value)] := rfl
  have hb1d : b1.depth = b.depth := rfl
  have hbfocal : t.bucketAt hsh = b := rfl
  have hld : b.depth ≤ t.depth := by
    have := depthOk hsh hshlt
    rw [hbfocal] at this
    exact this
  have hkeyres : h key % 2 ^ b.depth = hsh % 2 ^ b.depth := by
    rw [hhsh]
    show h key % 2 ^ b.depth = h key % 2 ^ t.depth % 2 ^ b.depth
    rw [mod_pow_mod _ _ _ hld]
  have hbAt : ∀ i, t1.bucketAt i = if t.dirGet i = pn then b1 else t.bucketAt i :=
    fun i => appendStep_bucketAt t pn b1 i hpn
  have hfocal1 : focal t1 pn = b1 := appendStep_focal_self t pn b1 hpn
  have hdepthEq : ∀ i, (t1.bucketAt i).depth = (t.bucketAt i).depth := by
    intro i
    rw [hbAt i]
    by_cases hip : t.dirGet i = pn
    · rw [if_pos hip, hb1d, bucketAt_eq_focal, hip, ← hbdef]
    · rw [if_neg hip]
  have hresEq : ∀ i, i < 2 ^ t.depth → t.dirGet i = pn →
      i % 2 ^ b.depth = hsh % 2 ^ b.depth := by
    intro i hi hip
    have hsh2 : t.dirGet i = t.dirGet hsh := by rw [hip, hpndef]
    have := (share i hi hsh hshlt).mp hsh2
    rw [bucketAt_eq_focal, hip, ← hbdef] at this
    exact this
  have hkeysNew : ∀ i, i < 2 ^ t.depth → t.dirGet i = pn →
      ∀ e ∈ b1.entries, h e.1 % 2 ^ b.depth = i % 2 ^ b.depth := by
    intro i hi hip e he
    have hresi := hresEq i hi hip
    rw [hb1e] at he
    rcases List.mem_append.mp he with hold | hnew
    · have := keysOk hsh hshlt e (by rw [hbfocal]; exact hold)
      rw [hbfocal] at this
      rw [this, hresi]
    · have he' : e = (key, value) := by simpa using hnew
      rw [he', hkeyres, hresi]
  have ht1slen : t1.store.length = t.store.length := by
    show (t.store.set pn b1).length = t.store.length
    rw [List.length_set]
  have hslots1 : ∀ i, i < 2 ^ t.depth →
      (t.dirGet i = pn ↔ i % 2 ^ b.depth = hsh % 2 ^ b.depth) := by
    intro i hi
    constructor
    · exact hresEq i hi
    · intro hres
      have := (share hsh hshlt i hi).mpr (by rw [hbfocal]; exact hres.symm)
      rw [hpndef]
      exact this.symm
  by_cases hov : (b.insertEntry B key value).2 = true
  · rw [if_pos hov] at hrun2
    refine splitB_preserves h B hB1 fuel t1 pn hsh t' ?_ hrun2
    refine ⟨dlen, ?_, ?_, ?_, ?_, ?_, ?_, ?_, ?_, ?_, ?_⟩
    · intro i hi
      show t.dirGet i < t1.store.length
      rw [ht1slen]
      exact valid i hi
    · rw [ht1slen]
      exact hpn
    · rw [hfocal1, hb1d]
      exact hld
    · rw [hfocal1]
      have hc := cntOk hsh hshlt
      rw [hbfocal] at hc
      rw [hb1e, List.length_append]
      simpa using hc
    · rw [hfocal1, hb1d]
      intro e he
      exact hkeysNew hsh hshlt rfl e he
    · intro i hi
      rw [hfocal1, hb1d]
      exact hslots1 i hi
    · intro i hi hne
      show (t1.bucketAt i).depth ≤ t.depth
      rw [hdepthEq i]
      exact depthOk i hi
    · intro i hi hne e he
      have hne' : t.dirGet i ≠ pn := hne
      rw [show t1.bucketAt i = t.bucketAt i from by
        rw [hbAt i, if_neg hne']] at he ⊢
      exact keysOk i hi e he
    · intro i hi hne
      have hne' : t.dirGet i ≠ pn := hne
      rw [show t1.bucketAt i = t.bucketAt i from by
        rw [hbAt i, if_neg hne']]
      exact cntOk i hi
    · intro i hi j hj
      show t.dirGet i = t.dirGet j ↔ _
      rw [hdepthEq i]
      exact share i hi j hj
  · rw [if_neg hov] at hrun2
    have ht' : t1 = t' := Option.some.inj hrun2
    rw [← ht']
    have hovLen : b1.entries.length ≤ B := by
      have hov2 : ¬ (b1.entries.length > B) := by
        intro hcon
        apply hov
        show decide (b1.entries.length > B) = true
        exact decide_eq_true hcon
      omega
    refine ⟨dlen, ?_, ?_, ?_, ?_, ?_⟩
    · intro i hi
      show t.dirGet i < t1.store.length
      rw [ht1slen]
      exact valid i hi
    · intro i hi
      show (t1.bucketAt i).depth ≤ t.depth
      rw [hdepthEq i]
      exact depthOk i hi
    · intro i hi e he
      show h e.1 % 2 ^ (t1.bucketAt i).depth = i % 2 ^ (t1.bucketAt i).depth
      rw [hdepthEq i]
      rw [hbAt i] at he
      by_cases hip : t.dirGet i = pn
      · rw [if_pos hip] at he
        have hbd : (t.bucketAt i).depth = b.depth := by
          rw [bucketAt_eq_focal, hip, ← hbdef]
        rw [hbd]
        exact hkeysNew i hi hip e he
      · rw [if_neg hip] at he
        exact keysOk i hi e he
    · intro i hi
      rw [hbAt i]
      by_cases hip : t.dirGet i = pn
      · rw [if_pos hip]
        exact hovLen
      · rw [if_neg hip]
        exact cntOk i hi
    · intro i hi j hj
      show t.dirGet i = t.dirGet j ↔
        i % 2 ^ (t1.bucketAt i).depth = j % 2 ^ (t1.bucketAt i).depth
      rw [hdepthEq i]
      exact share i hi j hj

/-- A depth-2 table (as `NewHashTable` builds, with bucket 3 already
holding two keys of residue 3) over the identity hash. -/
def c6table : HashTable :=
  { depth := 2, dir := [0, 1, 2, 3]
    store := [⟨2, []⟩, ⟨2, []⟩, ⟨2, []⟩, ⟨2, [(3, 1), (11, 2)]⟩] }

/-- The table after inserting key 7 with `BUCKETSIZE = 2`: the overflow of
bucket 3 triggers a split with a directory doubling, whose kept half is
still full and splits again with a second doubling. -/
def c6result : HashTable :=
  (insertHT (fun k : Int => k.toNat) 2 10 c6table 7 3).getD newHashTable

/-- Witness for C6: `BUCKETSIZE = 2`, the table above, inserting `(7, 3)`;
the run splits twice and doubles the directory twice, and the invariants
hold afterwards. -/
theorem hashTable_insert_preserves_invariants_witness :
    (1 ≤ 2) ∧ Inv (fun k : Int => k.toNat) 2 c6table ∧
    insertHT (fun k : Int => k.toNat) 2 10 c6table 7 3 = some c6result ∧
    Inv (fun k : Int => k.toNat) 2 c6result :=
  ⟨by decide, by decide, by rfl,
   hashTable_insert_preserves_invariants (fun k : Int => k.toNat) 2 (by decide)
     10 c6table c6result 7 3 (by decide) (by rfl)⟩

/-! ## The Grace hash join pipeline (`src/unnamed/part_001`, `Join`)

`buildHashIndex` streams a source table's entries (in cursor scan order)
into a fresh temporary hash table, hashing by key or — with `useKey`
false — by value with key and value flipped; the equalize phase extends
the shallower directory; the probe phase pairs bucket `i` of each side,
skipping already-seen `(leftPN, rightPN)` pairs, and runs `probeBuckets`
on each unseen pair.  The output channel is modelled as the accumulated
list; on sets of emitted pairs the task scheduling order is immaterial. -/

/-- `buildHashIndex`: insert every source entry into a fresh temporary
hash table (`OpenTable` on a new db yields `NewHashTable`'s state). -/
def buildHashIndex (h : Int → Nat) (B fuel : Nat)
    (sourceTable : List (Int × Int)) (useKey : Bool) : Option HashTable :=
  sourceTable.foldl
    (fun acc e => acc.bind (fun t =>
      if useKey then insertHT h B fuel t e.1 e.2
      else insertHT h B fuel t e.2 e.1))
    (some newHashTable)

/-- The equalize loop, structurally fueled (each pass raises the depth by
one, so `d` passes always suffice to reach depth `d`). -/
def extendToAux : Nat → HashTable → Nat → HashTable
  | 0, t, _ => t
  | fuel + 1, t, d => if t.depth < d then extendToAux fuel (extendTable t) d else t

/-- The equalize phase: `ExtendTable` until the depth reaches `d`. -/
def extendTo (t : HashTable) (d : Nat) : HashTable :=
  extendToAux d t d

/-- The probe phase: pair bucket `i` from each side for every directory
slot, skip `(leftPN, rightPN)` pairs already probed, and accumulate
`probeBuckets`' sends. -/
def probePhase (xx murmur : Int → Nat → Nat) (cancelled : Bool)
    (lt rt : HashTable) (joinOnLeftKey joinOnRightKey : Bool) :
    List EntryPair :=
  ((List.range lt.dir.length).foldl
    (fun (acc : List (Nat × Nat) × List EntryPair) i =>
      let lBucketPN := lt.dirGet i
      let rBucketPN := rt.dirGet i
      if (lBucketPN, rBucketPN) ∈ acc.1 then acc
      else
        ((lBucketPN, rBucketPN) :: acc.1,
         (probeBuckets xx murmur cancelled acc.2
           (focal lt lBucketPN) (focal rt rBucketPN)
           joinOnLeftKey joinOnRightKey).1))
    ([], [])).2

/-- `Join`: build both temporary hash indexes, equalize their depths, and
probe all bucket pairs (build errors propagate). -/
def graceJoin (h : Int → Nat) (xx murmur : Int → Nat → Nat) (B fuel : Nat)
    (cancelled : Bool) (leftTable rightTable : List (Int × Int))
    (joinOnLeftKey joinOnRightKey : Bool) : Option (List EntryPair) :=
  match buildHashIndex h B fuel leftTable joinOnLeftKey,
      buildHashIndex h B fuel rightTable joinOnRightKey with
  | some lt, some rt =>
      let d := max lt.depth rt.depth
      some (probePhase xx murmur cancelled (extendTo lt d) (extendTo rt d)
        joinOnLeftKey joinOnRightKey)
  | _, _ => none

/-- The join field of an entry: its key when `useKey`, else its value. -/
def joinField (e : Int × Int) (useKey : Bool) : Int :=
  if useKey then e.1 else e.2

/-- The nested-loop join: every pair of original entries whose join fields
agree. -/
def nestedLoopJoin (leftTable rightTable : List (Int × Int))
    (joinOnLeftKey joinOnRightKey : Bool) : List EntryPair :=
  leftTable.foldl
    (fun acc l => acc ++ rightTable.filterMap
      (fun r => if joinField l joinOnLeftKey = joinField r joinOnRightKey
        then some ((l, r) : EntryPair) else none))
    []

/-- C8 fails on the code: joining left `{(100,1)}` on its key with right
`{(1,100),(2,100)}` on its value, the nested-loop join yields the two
pairs `((100,1),(1,100))` and `((100,1),(2,100))`, but the Grace join
emits only the first — `probeBuckets` resolves each Bloom hit with
`rBucket.Find`, which returns just the *first* entry with the probed key,
so the second right entry with the same join value is dropped.  The third
conjunct exhibits the pair in the nested-loop set missing from the Grace
output. -/
theorem graceJoin_drops_duplicate_match :
    graceJoin (fun k : Int => k.toNat) (fun k n => k.toNat % n)
        (fun k n => (k.toNat * 7) % n) 4 10 false
        [(100, 1)] [(1, 100), (2, 100)] true false
      = some [((100, 1), (1, 100))] ∧
    nestedLoopJoin [(100, 1)] [(1, 100), (2, 100)] true false
      = [((100, 1), (1, 100)), ((100, 1), (2, 100))] ∧
    (((100, 1), (2, 100)) : EntryPair)
        ∈ nestedLoopJoin [(100, 1)] [(1, 100), (2, 100)] true false ∧
    (((100, 1), (2, 100)) : EntryPair) ∉ [((100, 1), (1, 100))] := by
  refine ⟨by rfl, by rfl, by decide, by decide⟩

/-- C10: For every Bloom filter and every sequence of `Insert` calls on it,
`Contains(k)` returns `true` for every key `k` that was inserted: the filter
has no false negatives.  Quantified over the two (abstract) hash functions,
the insertion sequence, and the inserted key. -/
theorem bloomFilter_no_false_negatives (xx murmur : Int → Nat → Nat)
    (keys : List Int) (k : Int) (hk : k ∈ keys) :
    ((CreateFilter DEFAULT_FILTER_SIZE).insertAll xx murmur keys).containsKey
      xx murmur k = true :=
  BloomFilter.contains_insertAll_aux xx murmur keys _ k (Or.inl hk)

/-- Witness for C10 at a concrete instance: hashers `k % 1024` and
`(k*7) % 1024`, keys `[3, 5]`, querying `5`. -/
theorem bloomFilter_no_false_negatives_witness :
    (5 : Int) ∈ [(3 : Int), 5] ∧
    ((CreateFilter DEFAULT_FILTER_SIZE).insertAll
        (fun k n => k.toNat % n) (fun k n => (k.toNat * 7) % n) [3, 5]).containsKey
        (fun k n => k.toNat % n) (fun k n => (k.toNat * 7) % n) 5 = true :=
  ⟨by decide,
   bloomFilter_no_false_negatives (fun k n => k.toNat % n)
     (fun k n => (k.toNat * 7) % n) [3, 5] 5 (by decide)⟩

end Db
